import Mathlib

/-!
Verification of the dependentspy core (module-tree construction, import
resolution, dead-end pruning, visibility filtering) against its
natural-language specification.  Each section embeds one component of the
Python source as executable Lean definitions and proves (or refutes) the
spec's claims about it.
-/

set_option maxHeartbeats 1000000

namespace Dependentspy

/-! ## Dead-end fixed point (utils.py / dependentspy.py, `find_dead_ends`)

The graph is a finite digraph: a vertex finset `V` and an edge finset `E`
(networkx `DiGraph` has no parallel edges).  `succs E v` are the
out-neighbours (`gr.successors(v)`), `preds E u` the in-neighbours
(`gr.predecessors(u)`).

The Python worklist loop is embedded faithfully: `passOne` is the body of
one `while` iteration, processing the flattened candidate list
`[v for u in prev for v in gr.predecessors(u)]` left to right while the
accumulator set `C` mutates mid-pass, exactly as the Python set does.
The enumeration order of Python's unordered sets is a parameter
`enum : Finset a -> List a` (any function listing exactly the members),
so order-(in)dependence can be quantified over. -/

namespace DeadEnds

variable {α : Type} [DecidableEq α]

/-- Out-neighbours of `v`: `set(gr.successors(v))`. -/
def succs (E : Finset (α × α)) (v : α) : Finset α :=
  (E.filter (fun p => p.1 = v)).image Prod.snd

/-- In-neighbours of `u`: `gr.predecessors(u)`. -/
def preds (E : Finset (α × α)) (u : α) : Finset α :=
  (E.filter (fun p => p.2 = u)).image Prod.fst

/-- An enumeration function lists exactly the members of each finset.  This
models iteration over a Python `set`, whose order is unspecified. -/
def ValidEnum (enum : Finset α → List α) : Prop :=
  ∀ s : Finset α, ∀ x : α, x ∈ enum s ↔ x ∈ s

/-- One full pass of the inner double loop of `find_dead_ends`:
for each candidate `v` (a predecessor of some frontier node), skip it if
already in `C`; otherwise if all its successors are in the current `C`,
add it to both `C` and `new`. -/
def passOne (E : Finset (α × α)) : List α → Finset α → Finset α → Finset α × Finset α
  | [], C, new => (C, new)
  | v :: vs, C, new =>
    if v ∈ C then passOne E vs C new
    else if succs E v ⊆ C then passOne E vs (insert v C) (insert v new)
    else passOne E vs C new

/-- The `while prev:` loop of `find_dead_ends`, with explicit fuel.  Each
iteration flattens `prev`'s predecessors into a candidate list (in the
order given by `enum`) and runs one pass. -/
def deadLoop (E : Finset (α × α)) (enum : Finset α → List α) :
    Nat → Finset α → Finset α → Finset α
  | 0, C, _ => C
  | fuel + 1, C, prev =>
    if prev = ∅ then C
    else
      let cands := (enum prev).flatMap (fun u => enum (preds E u))
      let res := passOne E cands C ∅
      deadLoop E enum fuel res.1 res.2

/-- The set of out-degree-0 vertices (`no_out` in the source). -/
def noOut (V : Finset α) (E : Finset (α × α)) : Finset α :=
  V.filter (fun v => (succs E v).card = 0)

/-- `find_dead_ends(gr)`: start from the out-degree-0 set and run the
worklist loop.  `V.card + 2` fuel is enough (proved below); the theorems
show extra fuel never changes the result. -/
def find_dead_ends (enum : Finset α → List α) (V : Finset α) (E : Finset (α × α)) :
    Finset α :=
  deadLoop E enum (V.card + 2) (noOut V E) (noOut V E)

/-- The specification's declarative fixed-point pass: add every vertex all
of whose successors are already members. -/
def specStep (V : Finset α) (E : Finset (α × α)) (S : Finset α) : Finset α :=
  S ∪ V.filter (fun v => succs E v ⊆ S)

/-- The specification's iteration: start with the out-degree-0 set,
repeatedly apply `specStep`. -/
def specIter (V : Finset α) (E : Finset (α × α)) : Nat → Finset α
  | 0 => noOut V E
  | n + 1 => specStep V E (specIter V E n)

theorem mem_succs {E : Finset (α × α)} {v u : α} : u ∈ succs E v ↔ (v, u) ∈ E := by
  constructor
  · intro h
    rcases Finset.mem_image.mp h with ⟨p, hp, hpu⟩
    rcases Finset.mem_filter.mp hp with ⟨hpE, hp1⟩
    have : p = (v, u) := by
      cases p
      simp_all
    rwa [this] at hpE
  · intro h
    exact Finset.mem_image.mpr ⟨(v, u), Finset.mem_filter.mpr ⟨h, rfl⟩, rfl⟩

theorem mem_preds {E : Finset (α × α)} {v u : α} : v ∈ preds E u ↔ (v, u) ∈ E := by
  constructor
  · intro h
    rcases Finset.mem_image.mp h with ⟨p, hp, hpv⟩
    rcases Finset.mem_filter.mp hp with ⟨hpE, hp2⟩
    have : p = (v, u) := by
      cases p
      simp_all
    rwa [this] at hpE
  · intro h
    exact Finset.mem_image.mpr ⟨(v, u), Finset.mem_filter.mpr ⟨h, rfl⟩, rfl⟩

theorem passOne_fst_mono (E : Finset (α × α)) (l : List α) (C new : Finset α) :
    C ⊆ (passOne E l C new).1 := by
  induction l generalizing C new with
  | nil => simp [passOne]
  | cons v vs ih =>
    by_cases h1 : v ∈ C
    · simpa [passOne, h1] using ih C new
    · by_cases h2 : succs E v ⊆ C
      · simp only [passOne, h1, h2, if_true, if_false]
        exact fun x hx => ih (insert v C) (insert v new) (Finset.mem_insert_of_mem hx)
      · simpa [passOne, h1, h2] using ih C new

theorem passOne_snd_eq (E : Finset (α × α)) (l : List α) (C new : Finset α) :
    (passOne E l C new).2 = new ∪ ((passOne E l C new).1 \ C) := by
  induction l generalizing C new with
  | nil => simp [passOne]
  | cons v vs ih =>
    by_cases h1 : v ∈ C
    · simp [passOne, h1, ih C new]
    · by_cases h2 : succs E v ⊆ C
      · simp only [passOne, h1, h2, if_true, if_false]
        rw [ih (insert v C) (insert v new)]
        have hv1 : v ∈ (passOne E vs (insert v C) (insert v new)).1 :=
          passOne_fst_mono E vs _ _ (Finset.mem_insert_self v C)
        ext x
        by_cases hx : x = v
        · subst hx
          have hL : x ∈ insert x new ∪ ((passOne E vs (insert x C) (insert x new)).1 \ insert x C) :=
            Finset.mem_union_left _ (Finset.mem_insert_self x new)
          have hR : x ∈ new ∪ ((passOne E vs (insert x C) (insert x new)).1 \ C) :=
            Finset.mem_union_right _ (Finset.mem_sdiff.mpr ⟨hv1, h1⟩)
          exact iff_of_true hL hR
        · simp [Finset.mem_union, Finset.mem_sdiff, Finset.mem_insert, hx]
      · simp [passOne, h1, h2, ih C new]

theorem passOne_fst_subset (E : Finset (α × α)) (l : List α) (C new : Finset α) :
    (passOne E l C new).1 ⊆ C ∪ l.toFinset := by
  induction l generalizing C new with
  | nil => simp [passOne]
  | cons v vs ih =>
    have hsub : C ∪ vs.toFinset ⊆ C ∪ (v :: vs).toFinset := by
      intro x hx
      rcases Finset.mem_union.mp hx with h | h
      · exact Finset.mem_union_left _ h
      · exact Finset.mem_union_right _ (by simp [List.mem_toFinset.mp h])
    by_cases h1 : v ∈ C
    · intro x hx
      refine hsub (ih C new ?_)
      simpa [passOne, h1] using hx
    · by_cases h2 : succs E v ⊆ C
      · intro x hx
        simp only [passOne, h1, h2, if_true, if_false] at hx
        have hx2 := ih (insert v C) (insert v new) hx
        rcases Finset.mem_union.mp hx2 with h | h
        · rcases Finset.mem_insert.mp h with h | h
          · exact Finset.mem_union_right _ (by simp [h])
          · exact Finset.mem_union_left _ h
        · exact hsub (Finset.mem_union_right _ h)
      · intro x hx
        refine hsub (ih C new ?_)
        simpa [passOne, h1, h2] using hx

theorem passOne_sound (E : Finset (α × α)) (S : Finset α) :
    ∀ (l : List α) (C new : Finset α),
      (∀ v ∈ l, succs E v ⊆ S → v ∈ S) → C ⊆ S → (passOne E l C new).1 ⊆ S := by
  intro l
  induction l with
  | nil =>
    intro C new _ hC
    simpa [passOne] using hC
  | cons v vs ih =>
    intro C new hS hC
    by_cases h1 : v ∈ C
    · simpa [passOne, h1] using ih C new (fun w hw h => hS w (by simp [hw]) h) hC
    · by_cases h2 : succs E v ⊆ C
      · simp only [passOne, h1, h2, if_true, if_false]
        refine ih (insert v C) (insert v new) (fun w hw h => hS w (by simp [hw]) h) ?_
        intro x hx
        rcases Finset.mem_insert.mp hx with h | h
        · subst h
          exact hS x (by simp) (h2.trans hC)
        · exact hC h
      · simpa [passOne, h1, h2] using ih C new (fun w hw h => hS w (by simp [hw]) h) hC

theorem passOne_complete (E : Finset (α × α)) {v : α} :
    ∀ (l : List α) (C new : Finset α), v ∈ l → succs E v ⊆ C →
      v ∈ (passOne E l C new).1 := by
  intro l
  induction l with
  | nil =>
    intro C new hv _
    simp at hv
  | cons w vs ih =>
    intro C new hv hsucc
    rcases List.mem_cons.mp hv with h | h
    · subst h
      by_cases h1 : v ∈ C
      · simpa [passOne, h1] using passOne_fst_mono E vs C new h1
      · simp only [passOne, h1, hsucc, if_true, if_false]
        exact passOne_fst_mono E vs _ _ (Finset.mem_insert_self v C)
    · by_cases h1 : w ∈ C
      · simpa [passOne, h1] using ih C new h hsucc
      · by_cases h2 : succs E w ⊆ C
        · simp only [passOne, h1, h2, if_true, if_false]
          exact ih (insert w C) (insert w new) h
            (hsucc.trans (Finset.subset_insert w C))
        · simpa [passOne, h1, h2] using ih C new h hsucc

theorem specIter_subset_V (V : Finset α) (E : Finset (α × α)) (n : Nat) :
    specIter V E n ⊆ V := by
  induction n with
  | zero => exact Finset.filter_subset _ _
  | succ n ih =>
    simp only [specIter, specStep]
    exact Finset.union_subset ih (Finset.filter_subset _ _)

theorem specIter_le_mono (V : Finset α) (E : Finset (α × α)) {m n : Nat} (h : m ≤ n) :
    specIter V E m ⊆ specIter V E n := by
  obtain ⟨k, rfl⟩ := Nat.exists_eq_add_of_le h
  clear h
  induction k with
  | zero => exact subset_rfl
  | succ k ih =>
    have he : specIter V E (m + (k + 1)) = specStep V E (specIter V E (m + k)) := rfl
    rw [he]
    exact ih.trans Finset.subset_union_left

theorem specIter_eq_stab (V : Finset α) (E : Finset (α × α)) {n : Nat}
    (h : specIter V E n = specIter V E (n + 1)) (k : Nat) :
    specIter V E (n + k) = specIter V E n := by
  induction k with
  | zero => rfl
  | succ k ih =>
    have he : specIter V E (n + (k + 1)) = specStep V E (specIter V E (n + k)) := rfl
    rw [he, ih]
    exact h.symm

theorem specIter_card_ge (V : Finset α) (E : Finset (α × α)) :
    ∀ n : Nat, (∀ k < n, specIter V E k ≠ specIter V E (k + 1)) →
      n ≤ (specIter V E n).card := by
  intro n
  induction n with
  | zero =>
    intro _
    omega
  | succ n ih =>
    intro h
    have h1 : n ≤ (specIter V E n).card := ih (fun k hk => h k (by omega))
    have h2 : specIter V E n ⊂ specIter V E (n + 1) :=
      Finset.ssubset_iff_subset_ne.mpr ⟨specIter_le_mono V E (by omega), h n (by omega)⟩
    have h3 := Finset.card_lt_card h2
    omega

theorem specIter_stabilizes (V : Finset α) (E : Finset (α × α)) :
    specIter V E V.card = specIter V E (V.card + 1) := by
  by_cases h : ∃ k < V.card, specIter V E k = specIter V E (k + 1)
  · rcases h with ⟨k, hk, heq⟩
    have e1 := specIter_eq_stab V E heq (V.card - k)
    have e2 := specIter_eq_stab V E heq (V.card + 1 - k)
    have n1 : k + (V.card - k) = V.card := by omega
    have n2 : k + (V.card + 1 - k) = V.card + 1 := by omega
    rw [n1] at e1
    rw [n2] at e2
    rw [e1, e2]
  · push_neg at h
    have hge := specIter_card_ge V E V.card (fun k hk => h k hk)
    have heq : specIter V E V.card = V :=
      Finset.eq_of_subset_of_card_le (specIter_subset_V V E _) hge
    have : specIter V E (V.card + 1) = specStep V E V := by
      simp only [specIter, heq]
    rw [this, heq, specStep]
    exact (Finset.union_eq_left.mpr (Finset.filter_subset _ _)).symm

/-- The stabilized fixed point of the declarative iteration. -/
def specFix (V : Finset α) (E : Finset (α × α)) : Finset α := specIter V E V.card

theorem specFix_closed (V : Finset α) (E : Finset (α × α)) :
    ∀ v ∈ V, succs E v ⊆ specFix V E → v ∈ specFix V E := by
  intro v hv hsucc
  have h1 : specStep V E (specFix V E) = specFix V E := (specIter_stabilizes V E).symm
  rw [← h1]
  exact Finset.mem_union_right _ (Finset.mem_filter.mpr ⟨hv, hsucc⟩)

theorem noOut_subset_specFix (V : Finset α) (E : Finset (α × α)) :
    noOut V E ⊆ specFix V E :=
  specIter_le_mono V E (Nat.zero_le _)

theorem specIter_least (V : Finset α) (E : Finset (α × α)) (S : Finset α)
    (h0 : noOut V E ⊆ S) (hcl : ∀ v ∈ V, succs E v ⊆ S → v ∈ S) (n : Nat) :
    specIter V E n ⊆ S := by
  induction n with
  | zero => exact h0
  | succ n ih =>
    simp only [specIter, specStep]
    refine Finset.union_subset ih ?_
    intro v hv
    rcases Finset.mem_filter.mp hv with ⟨hvV, hsucc⟩
    exact hcl v hvV (hsucc.trans ih)

theorem closed_eq_specFix (V : Finset α) (E : Finset (α × α)) (C : Finset α)
    (h0 : noOut V E ⊆ C) (hfix : C ⊆ specFix V E)
    (hcl : ∀ v ∈ V, succs E v ⊆ C → v ∈ C) : C = specFix V E :=
  Finset.Subset.antisymm hfix (specIter_least V E C h0 hcl V.card)

theorem deadLoop_empty_frontier (E : Finset (α × α)) (enum : Finset α → List α)
    (n : Nat) (C : Finset α) : deadLoop E enum n C ∅ = C := by
  cases n <;> simp [deadLoop]

theorem deadLoop_correct (V : Finset α) (E : Finset (α × α))
    (enum : Finset α → List α) (henum : ValidEnum enum)
    (hE : ∀ p ∈ E, p.1 ∈ V ∧ p.2 ∈ V) :
    ∀ (fuel : Nat) (C prev : Finset α),
      noOut V E ⊆ C → C ⊆ V → C ⊆ specFix V E →
      (∀ v ∈ V, v ∉ C → succs E v ⊆ C → ∃ u ∈ prev, u ∈ succs E v) →
      V.card + 2 ≤ fuel + C.card →
      deadLoop E enum fuel C prev = specFix V E := by
  intro fuel
  induction fuel with
  | zero =>
    intro C prev h0 hCV _ _ hfuel
    have := Finset.card_le_card hCV
    omega
  | succ n ih =>
    intro C prev h0 hCV hCfix hJ hfuel
    by_cases hprev : prev = ∅
    · have hcl : ∀ v ∈ V, succs E v ⊆ C → v ∈ C := by
        intro v hv hsucc
        by_contra hvC
        rcases hJ v hv hvC hsucc with ⟨u, hu, _⟩
        rw [hprev] at hu
        exact absurd hu (Finset.not_mem_empty u)
      have hret : deadLoop E enum (n + 1) C prev = C := by
        simp [deadLoop, hprev]
      rw [hret]
      exact closed_eq_specFix V E C h0 hCfix hcl
    · have hstep : deadLoop E enum (n + 1) C prev =
        deadLoop E enum n
          (passOne E ((enum prev).flatMap (fun u => enum (preds E u))) C ∅).1
          (passOne E ((enum prev).flatMap (fun u => enum (preds E u))) C ∅).2 := by
        simp [deadLoop, hprev]
      set cands := (enum prev).flatMap (fun u => enum (preds E u)) with hcands
      have hcandsV : ∀ v ∈ cands, v ∈ V := by
        intro v hv
        rcases List.mem_flatMap.mp hv with ⟨u, _, hvu⟩
        have hvp : v ∈ preds E u := (henum _ _).mp hvu
        exact (hE _ (mem_preds.mp hvp)).1
      set D := (passOne E cands C ∅).1 with hDdef
      have hmono : C ⊆ D := passOne_fst_mono E cands C ∅
      have hnew : (passOne E cands C ∅).2 = D \ C := by
        rw [passOne_snd_eq]
        simp
      have hDV : D ⊆ V := by
        refine (passOne_fst_subset E cands C ∅).trans (Finset.union_subset hCV ?_)
        intro x hx
        exact hcandsV x (List.mem_toFinset.mp hx)
      have hDfix : D ⊆ specFix V E :=
        passOne_sound E (specFix V E) cands C ∅
          (fun v hv hs => specFix_closed V E v (hcandsV v hv) hs) hCfix
      have h0' : noOut V E ⊆ D := h0.trans hmono
      have hJnew : ∀ v ∈ V, v ∉ D → succs E v ⊆ D → ∃ u ∈ D \ C, u ∈ succs E v := by
        intro v hv hvD hsucc
        by_cases hsub : succs E v ⊆ C
        · exfalso
          have hvC : v ∉ C := fun h => hvD (hmono h)
          rcases hJ v hv hvC hsub with ⟨u, huprev, husucc⟩
          have hvcand : v ∈ cands := by
            refine List.mem_flatMap.mpr ⟨u, (henum _ _).mpr huprev, ?_⟩
            exact (henum _ _).mpr (mem_preds.mpr (mem_succs.mp husucc))
          exact hvD (passOne_complete E cands C ∅ hvcand hsub)
        · rcases Finset.not_subset.mp hsub with ⟨u, husucc, huC⟩
          exact ⟨u, Finset.mem_sdiff.mpr ⟨hsucc husucc, huC⟩, husucc⟩
      rw [hstep, hnew]
      by_cases hgrow : D \ C = ∅
      · have hCD : D = C := by
          apply Finset.Subset.antisymm _ hmono
          intro x hx
          by_contra hxC
          exact absurd (Finset.mem_sdiff.mpr ⟨hx, hxC⟩) (by simp [hgrow])
        rw [hgrow, deadLoop_empty_frontier]
        have hcl : ∀ v ∈ V, succs E v ⊆ D → v ∈ D := by
          intro v hv hsucc
          by_contra hvD
          rcases hJnew v hv hvD hsucc with ⟨u, hu, _⟩
          rw [hgrow] at hu
          exact absurd hu (Finset.not_mem_empty u)
        exact closed_eq_specFix V E D h0' hDfix hcl
      · rcases Finset.nonempty_iff_ne_empty.mpr hgrow with ⟨x, hx⟩
        have hss : C ⊂ D := by
          refine Finset.ssubset_iff_subset_ne.mpr ⟨hmono, ?_⟩
          intro hcc
          rcases Finset.mem_sdiff.mp hx with ⟨hx1, hx2⟩
          rw [← hcc] at hx1
          exact hx2 hx1
        have hcard := Finset.card_lt_card hss
        exact ih D (D \ C) h0' hDV hDfix hJnew (by omega)

theorem find_dead_ends_eq_specFix (V : Finset α) (E : Finset (α × α))
    (enum : Finset α → List α) (henum : ValidEnum enum)
    (hE : ∀ p ∈ E, p.1 ∈ V ∧ p.2 ∈ V) :
    find_dead_ends enum V E = specFix V E := by
  refine deadLoop_correct V E enum henum hE (V.card + 2) (noOut V E) (noOut V E)
    subset_rfl (Finset.filter_subset _ _) (noOut_subset_specFix V E) ?_ (by omega)
  intro v hv hvC hsucc
  have hne : (succs E v).Nonempty := by
    rcases Finset.eq_empty_or_nonempty (succs E v) with h | h
    · exact absurd (Finset.mem_filter.mpr ⟨hv, by simp [h]⟩) hvC
    · exact h
  rcases hne with ⟨u, hu⟩
  exact ⟨u, hsucc hu, hu⟩

/-- C1: For every finite directed graph, the dead-end computation terminates
(within at most the number-of-vertices many productive passes: any fuel
beyond the built-in bound gives the same answer) and returns exactly the
fixed point obtained by starting with the set of out-degree-0 nodes and
repeatedly adding any node all of whose successors are already members,
until no node is added in a full pass (the declarative iteration `specIter`
stabilizes by pass `V.card`); and the resulting set is the same regardless
of the order in which the frontier is processed within each pass (any two
valid set-enumeration orders give equal results). -/
theorem C1_dead_ends_fixed_point (V : Finset α) (E : Finset (α × α))
    (enum1 enum2 : Finset α → List α)
    (h1 : ValidEnum enum1) (h2 : ValidEnum enum2)
    (hE : ∀ p ∈ E, p.1 ∈ V ∧ p.2 ∈ V) :
    find_dead_ends enum1 V E = specIter V E V.card ∧
    find_dead_ends enum1 V E = find_dead_ends enum2 V E ∧
    specIter V E (V.card + 1) = specIter V E V.card ∧
    ∀ extra : Nat,
      deadLoop E enum1 (V.card + 2 + extra) (noOut V E) (noOut V E) =
        find_dead_ends enum1 V E := by
  have e1 := find_dead_ends_eq_specFix V E enum1 h1 hE
  have e2 := find_dead_ends_eq_specFix V E enum2 h2 hE
  refine ⟨e1, e1.trans e2.symm, (specIter_stabilizes V E).symm, ?_⟩
  intro extra
  have e3 : deadLoop E enum1 (V.card + 2 + extra) (noOut V E) (noOut V E) =
      specFix V E := by
    refine deadLoop_correct V E enum1 h1 hE (V.card + 2 + extra) (noOut V E)
      (noOut V E) subset_rfl (Finset.filter_subset _ _)
      (noOut_subset_specFix V E) ?_ (by omega)
    intro v hv hvC hsucc
    have hne : (succs E v).Nonempty := by
      rcases Finset.eq_empty_or_nonempty (succs E v) with h | h
      · exact absurd (Finset.mem_filter.mpr ⟨hv, by simp [h]⟩) hvC
      · exact h
    rcases hne with ⟨u, hu⟩
    exact ⟨u, hsucc hu, hu⟩
  rw [e3, e1]

/-- Enumeration of a finset of naturals in increasing order. -/
def sortEnum : Finset Nat → List Nat := fun s => s.sort (· ≤ ·)

/-- Enumeration of a finset of naturals in decreasing order. -/
def sortEnumRev : Finset Nat → List Nat := fun s => (s.sort (· ≤ ·)).reverse

theorem sortEnum_valid : ValidEnum sortEnum := by
  intro s x
  simp [sortEnum, Finset.mem_sort]

theorem sortEnumRev_valid : ValidEnum sortEnumRev := by
  intro s x
  simp [sortEnumRev, Finset.mem_sort]

/-- Witness for C1 on a concrete 4-vertex graph with a 2-cycle, with two
different frontier orders. -/
theorem C1_dead_ends_fixed_point_witness :
    find_dead_ends sortEnum {0, 1, 2, 3} {(0, 1), (1, 0), (1, 2)} =
        specIter {0, 1, 2, 3} {(0, 1), (1, 0), (1, 2)}
          (({0, 1, 2, 3} : Finset Nat).card) ∧
      find_dead_ends sortEnum {0, 1, 2, 3} {(0, 1), (1, 0), (1, 2)} =
        find_dead_ends sortEnumRev {0, 1, 2, 3} {(0, 1), (1, 0), (1, 2)} := by
  have h := C1_dead_ends_fixed_point {0, 1, 2, 3} {(0, 1), (1, 0), (1, 2)}
    sortEnum sortEnumRev sortEnum_valid sortEnumRev_valid (by decide)
  exact ⟨h.1, h.2.1⟩

end DeadEnds

/-! ## Module tree completion (module.py / dependentspy.py, `complete_module_tree`)

A `Module` object is embedded as a `ModEntry` (its immutable `path`, and the
mutable `parent` back-reference and `children` list, both held as routes).
The Python identity-bearing heap is a `Store`: the association list backing
`route_map` (one entry per route; keys unique whenever the inputs have
unique routes, which the data model guarantees).  Routes are the dot-joined
paths, exactly as `".".join(self.path)` computes them.

`walk tag p i st child` is the inner `for i in reversed(range(1, len(path)))`
loop of `complete_module_tree` with `child` the route of `p.take (i+1)`:
look up the prefix route; if present, link and stop; otherwise synthesize a
new module for the prefix, link, record it in `inner_modules`, and continue
upward.  `completeTree` is the outer `for m in modules` loop. -/

namespace MTree

/-- One `Module` object: immutable `path`, `parent` back-reference and
owned `children` list (both as routes), and the `ProjectModule`-vs-`Module`
variant tag (`cls` in the source). -/
structure ModEntry where
  path : List String
  parent : Option String
  children : List String
  isProj : Bool
deriving DecidableEq

/-- The heap of modules, keyed by route (`route_map`). -/
abbrev Store := List (String × ModEntry)

/-- `".".join(path)`. -/
def joinDot : List String → String
  | [] => ""
  | [s] => s
  | s :: rest => s ++ "." ++ joinDot rest

def keys (st : Store) : List String := st.map Prod.fst

def findEntry : Store → String → Option ModEntry
  | [], _ => none
  | (k, e) :: rest, r => if k = r then some e else findEntry rest r

/-- `parent.children.append(child)`. -/
def addChild (st : Store) (pr cr : String) : Store :=
  st.map (fun ke =>
    if ke.1 = pr then (ke.1, { ke.2 with children := ke.2.children ++ [cr] }) else ke)

/-- `child.parent = parent`. -/
def setParent (st : Store) (cr pr : String) : Store :=
  st.map (fun ke =>
    if ke.1 = cr then (ke.1, { ke.2 with parent := some pr }) else ke)

/-- The inner prefix-walking loop of `complete_module_tree`.  At fuel
`i + 1` the current prefix is `p.take (i + 1)` (`subpath = m.path[:i]` with
Python's `i` equal to our `i + 1`), and `child` is the route of
`p.take (i + 2)`.  Returns the new store and the list of synthesized
routes (`inner_modules`), in creation order. -/
def walk (tag : Bool) (p : List String) : Nat → Store → String → Store × List String
  | 0, st, _ => (st, [])
  | i + 1, st, child =>
    let subpath := p.take (i + 1)
    let subroute := joinDot subpath
    match findEntry st subroute with
    | some _ =>
      let st1 := addChild st subroute child
      let st2 := setParent st1 child subroute
      (st2, [])
    | none =>
      let st1 := st ++ [(subroute, ⟨subpath, none, [], tag⟩)]
      let st2 := addChild st1 subroute child
      let st3 := setParent st2 child subroute
      let res := walk tag p i st3 subroute
      (res.1, subroute :: res.2)

/-- The outer `for m in modules` loop of `complete_module_tree`. -/
def completeTree (tag : Bool) : List (List String) → Store → Store × List String
  | [], st => (st, [])
  | p :: rest, st =>
    let res := walk tag p (p.length - 1) st (joinDot p)
    let res2 := completeTree tag rest res.1
    (res2.1, res.2 ++ res2.2)

/-- `route_map = {m.route: m for m in modules}` for a fresh (unlinked) list
of leaf modules. -/
def initStore (tag : Bool) (inputs : List (List String)) : Store :=
  inputs.map (fun p => (joinDot p, ⟨p, none, [], tag⟩))

/-- `complete_module_tree(modules, cls)` on a fresh list of leaf modules. -/
def complete_module_tree (tag : Bool) (inputs : List (List String)) :
    Store × List String :=
  completeTree tag inputs (initStore tag inputs)

/-- The returned list `list(modules) + inner_modules`, as routes. -/
def resultRoutes (tag : Bool) (inputs : List (List String)) : List String :=
  inputs.map joinDot ++ (complete_module_tree tag inputs).2

/-- All nonempty prefixes of a path (including the path itself). -/
def prefList (p : List String) : List (List String) :=
  (List.range p.length).map (fun k => p.take (k + 1))

/-- All nonempty prefixes of all the input paths. -/
def prefClosure (inputs : List (List String)) : List (List String) :=
  inputs.flatMap prefList

def pathOf (st : Store) (r : String) : Option (List String) :=
  (findEntry st r).map ModEntry.path

def parentOf (st : Store) (r : String) : Option String :=
  (findEntry st r).bind ModEntry.parent

def childrenOf (st : Store) (r : String) : Option (List String) :=
  (findEntry st r).map ModEntry.children

/-- Iterated parent traversal (`path_to_root`). -/
def parentIter (st : Store) : Nat → String → Option String
  | 0, r => some r
  | n + 1, r => (parentOf st r).bind (parentIter st n)

theorem keys_addChild (st : Store) (pr cr : String) :
    keys (addChild st pr cr) = keys st := by
  induction st with
  | nil => rfl
  | cons ke rest ih =>
    simp only [addChild, keys, List.map_cons] at *
    by_cases h : ke.1 = pr <;> simp [h, ih]

theorem keys_setParent (st : Store) (cr pr : String) :
    keys (setParent st cr pr) = keys st := by
  induction st with
  | nil => rfl
  | cons ke rest ih =>
    simp only [setParent, keys, List.map_cons] at *
    by_cases h : ke.1 = cr <;> simp [h, ih]

theorem keys_append (st st' : Store) : keys (st ++ st') = keys st ++ keys st' := by
  simp [keys]

theorem findEntry_none_iff (st : Store) (r : String) :
    findEntry st r = none ↔ r ∉ keys st := by
  induction st with
  | nil => simp [findEntry, keys]
  | cons ke rest ih =>
    cases ke with
    | mk k e =>
      by_cases h : k = r
      · subst h
        simp [findEntry, keys]
      · simp [findEntry, keys, h, ih, Ne.symm h]

theorem findEntry_mem_keys {st : Store} {r : String} {e : ModEntry}
    (h : findEntry st r = some e) : r ∈ keys st := by
  by_contra hk
  rw [← findEntry_none_iff] at hk
  rw [h] at hk
  exact Option.noConfusion hk

theorem mem_keys_findEntry {st : Store} {r : String} (h : r ∈ keys st) :
    ∃ e, findEntry st r = some e := by
  cases hfe : findEntry st r with
  | none => exact absurd ((findEntry_none_iff st r).mp hfe) (by simp [h])
  | some e => exact ⟨e, rfl⟩

theorem addChild_cons (k : String) (e : ModEntry) (rest : Store) (pr cr : String) :
    addChild ((k, e) :: rest) pr cr =
      (if k = pr then (k, { e with children := e.children ++ [cr] }) else (k, e)) ::
        addChild rest pr cr := rfl

theorem setParent_cons (k : String) (e : ModEntry) (rest : Store) (cr pr : String) :
    setParent ((k, e) :: rest) cr pr =
      (if k = cr then (k, { e with parent := some pr }) else (k, e)) ::
        setParent rest cr pr := rfl

theorem findEntry_addChild (st : Store) (pr cr r : String) :
    findEntry (addChild st pr cr) r =
      (findEntry st r).map
        (fun e => if r = pr then { e with children := e.children ++ [cr] } else e) := by
  induction st with
  | nil => rfl
  | cons ke rest ih =>
    cases ke with
    | mk k e =>
      rw [addChild_cons]
      by_cases hp : k = pr
      · rw [if_pos hp]
        by_cases hk : k = r
        · subst hk
          subst hp
          simp [findEntry]
        · simp [findEntry, hk, ih]
      · rw [if_neg hp]
        by_cases hk : k = r
        · subst hk
          simp [findEntry, hp]
        · simp [findEntry, hk, ih]

theorem findEntry_setParent (st : Store) (cr pr r : String) :
    findEntry (setParent st cr pr) r =
      (findEntry st r).map
        (fun e => if r = cr then { e with parent := some pr } else e) := by
  induction st with
  | nil => rfl
  | cons ke rest ih =>
    cases ke with
    | mk k e =>
      rw [setParent_cons]
      by_cases hp : k = cr
      · rw [if_pos hp]
        by_cases hk : k = r
        · subst hk
          subst hp
          simp [findEntry]
        · simp [findEntry, hk, ih]
      · rw [if_neg hp]
        by_cases hk : k = r
        · subst hk
          simp [findEntry, hp]
        · simp [findEntry, hk, ih]

theorem findEntry_append_left {st : Store} {r : String} (st' : Store)
    (h : r ∈ keys st) : findEntry (st ++ st') r = findEntry st r := by
  induction st with
  | nil => simp [keys] at h
  | cons ke rest ih =>
    cases ke with
    | mk k e =>
      by_cases hk : k = r
      · simp [findEntry, hk]
      · simp only [keys, List.map_cons, List.mem_cons] at h
        rcases h with h | h
        · exact absurd h.symm hk
        · simp [findEntry, hk, ih h]

theorem findEntry_append_right {st : Store} {r : String} (st' : Store)
    (h : r ∉ keys st) : findEntry (st ++ st') r = findEntry st' r := by
  induction st with
  | nil => simp [findEntry]
  | cons ke rest ih =>
    cases ke with
    | mk k e =>
      simp only [keys, List.map_cons, List.mem_cons] at h
      push_neg at h
      simp [findEntry, Ne.symm h.1, ih h.2]

theorem pathOf_addChild (st : Store) (pr cr r : String) :
    pathOf (addChild st pr cr) r = pathOf st r := by
  simp only [pathOf, findEntry_addChild, Option.map_map]
  cases findEntry st r with
  | none => rfl
  | some e =>
    by_cases h : r = pr <;> simp [h, Function.comp]

theorem pathOf_setParent (st : Store) (cr pr r : String) :
    pathOf (setParent st cr pr) r = pathOf st r := by
  simp only [pathOf, findEntry_setParent, Option.map_map]
  cases findEntry st r with
  | none => rfl
  | some e =>
    by_cases h : r = cr <;> simp [h, Function.comp]

theorem parentOf_addChild (st : Store) (pr cr r : String) :
    parentOf (addChild st pr cr) r = parentOf st r := by
  simp only [parentOf, findEntry_addChild]
  cases findEntry st r with
  | none => rfl
  | some e =>
    by_cases h : r = pr <;> simp [h]

theorem parentOf_setParent_self (st : Store) (pr : String) {r : String}
    (h : r ∈ keys st) : parentOf (setParent st r pr) r = some pr := by
  rcases mem_keys_findEntry h with ⟨e, he⟩
  simp [parentOf, findEntry_setParent, he]

theorem parentOf_setParent_other (st : Store) (cr pr : String) {r : String}
    (h : r ≠ cr) : parentOf (setParent st cr pr) r = parentOf st r := by
  simp only [parentOf, findEntry_setParent]
  cases findEntry st r with
  | none => rfl
  | some e => simp [h]

theorem parentOf_setParent_ne_none (st : Store) (cr pr : String) {r : String}
    (h : parentOf st r ≠ none) : parentOf (setParent st cr pr) r ≠ none := by
  by_cases hr : r = cr
  · subst hr
    have hk : r ∈ keys st := by
      simp only [parentOf] at h
      cases hfe : findEntry st r with
      | none => simp [hfe] at h
      | some e => exact findEntry_mem_keys hfe
    simp [parentOf_setParent_self st pr hk]
  · rw [parentOf_setParent_other st cr pr hr]
    exact h

theorem childrenOf_setParent (st : Store) (cr pr r : String) :
    childrenOf (setParent st cr pr) r = childrenOf st r := by
  simp only [childrenOf, findEntry_setParent, Option.map_map]
  cases findEntry st r with
  | none => rfl
  | some e =>
    by_cases h : r = cr <;> simp [h, Function.comp]

theorem childrenOf_addChild_self (st : Store) (cr : String) {r : String}
    (h : r ∈ keys st) :
    childrenOf (addChild st r cr) r = (childrenOf st r).map (fun c => c ++ [cr]) := by
  rcases mem_keys_findEntry h with ⟨e, he⟩
  simp [childrenOf, findEntry_addChild, he]

theorem childrenOf_addChild_other (st : Store) (pr cr : String) {r : String}
    (h : r ≠ pr) : childrenOf (addChild st pr cr) r = childrenOf st r := by
  simp only [childrenOf, findEntry_addChild, Option.map_map]
  cases findEntry st r with
  | none => rfl
  | some e => simp [h, Function.comp]

/-- The two mutations performed when a prefix entry is (found or created):
`parent.children.append(child); child.parent = parent`. -/
def linkStep (st : Store) (subroute child : String) : Store :=
  setParent (addChild st subroute child) child subroute

/-- The store after synthesizing a missing prefix entry and linking the
current child under it. -/
def createStep (tag : Bool) (p : List String) (i : Nat) (st : Store)
    (child : String) : Store :=
  linkStep (st ++ [(joinDot (p.take (i + 1)), ⟨p.take (i + 1), none, [], tag⟩)])
    (joinDot (p.take (i + 1))) child

theorem walk_zero (tag : Bool) (p : List String) (st : Store) (child : String) :
    walk tag p 0 st child = (st, []) := rfl

theorem walk_existing {tag : Bool} {p : List String} {i : Nat} {st : Store}
    {child : String} {e : ModEntry}
    (h : findEntry st (joinDot (p.take (i + 1))) = some e) :
    walk tag p (i + 1) st child =
      (linkStep st (joinDot (p.take (i + 1))) child, []) := by
  simp [walk, h, linkStep]

theorem walk_create {tag : Bool} {p : List String} {i : Nat} {st : Store}
    {child : String}
    (h : findEntry st (joinDot (p.take (i + 1))) = none) :
    walk tag p (i + 1) st child =
      ((walk tag p i (createStep tag p i st child) (joinDot (p.take (i + 1)))).1,
        joinDot (p.take (i + 1)) ::
          (walk tag p i (createStep tag p i st child) (joinDot (p.take (i + 1)))).2) := by
  simp [walk, h, createStep, linkStep]

theorem keys_linkStep (st : Store) (s c : String) :
    keys (linkStep st s c) = keys st := by
  simp [linkStep, keys_setParent, keys_addChild]

theorem keys_createStep (tag : Bool) (p : List String) (i : Nat) (st : Store)
    (c : String) :
    keys (createStep tag p i st c) = keys st ++ [joinDot (p.take (i + 1))] := by
  rw [createStep, keys_linkStep, keys_append]
  rfl

theorem pathOf_linkStep (st : Store) (s c r : String) :
    pathOf (linkStep st s c) r = pathOf st r := by
  simp [linkStep, pathOf_setParent, pathOf_addChild]

theorem parentOf_linkStep_ne_none (st : Store) (s c : String) {r : String}
    (h : parentOf st r ≠ none) : parentOf (linkStep st s c) r ≠ none := by
  simp only [linkStep]
  refine parentOf_setParent_ne_none _ c s ?_
  rwa [parentOf_addChild]

theorem parentOf_linkStep_child (st : Store) (s : String) {c : String}
    (h : c ∈ keys st) : parentOf (linkStep st s c) c = some s := by
  simp only [linkStep]
  refine parentOf_setParent_self _ s ?_
  rwa [keys_addChild]

theorem pathOf_createStep_old (tag : Bool) (p : List String) (i : Nat)
    (st : Store) (c : String) {r : String} (h : r ∈ keys st) :
    pathOf (createStep tag p i st c) r = pathOf st r := by
  rw [createStep, pathOf_linkStep]
  simp only [pathOf]
  rw [findEntry_append_left _ h]

theorem pathOf_createStep_new (tag : Bool) (p : List String) (i : Nat)
    (st : Store) (c : String)
    (h : joinDot (p.take (i + 1)) ∉ keys st) :
    pathOf (createStep tag p i st c) (joinDot (p.take (i + 1))) =
      some (p.take (i + 1)) := by
  rw [createStep, pathOf_linkStep]
  simp only [pathOf]
  rw [findEntry_append_right _ h]
  simp [findEntry]

theorem pathOf_createStep_none (tag : Bool) (p : List String) (i : Nat)
    (st : Store) (c : String) {r : String} (h1 : r ∉ keys st)
    (h2 : r ≠ joinDot (p.take (i + 1))) :
    pathOf (createStep tag p i st c) r = none := by
  rw [createStep, pathOf_linkStep]
  simp only [pathOf]
  rw [findEntry_append_right _ h1]
  simp [findEntry, Ne.symm h2]

theorem pathOf_none_iff (st : Store) (r : String) :
    pathOf st r = none ↔ r ∉ keys st := by
  simp only [pathOf]
  cases hfe : findEntry st r with
  | none => simpa using (findEntry_none_iff st r).mp hfe
  | some e =>
    simp only [Option.map_some']
    constructor
    · intro h
      exact Option.noConfusion h
    · intro h
      exact absurd (findEntry_mem_keys hfe) h

theorem walk_keys (tag : Bool) (p : List String) :
    ∀ (i : Nat) (st : Store) (child : String),
      keys (walk tag p i st child).1 = keys st ++ (walk tag p i st child).2 := by
  intro i
  induction i with
  | zero =>
    intro st child
    simp [walk_zero]
  | succ i ih =>
    intro st child
    cases hfe : findEntry st (joinDot (p.take (i + 1))) with
    | some e =>
      rw [walk_existing hfe]
      simp [keys_linkStep]
    | none =>
      rw [walk_create hfe]
      simp only []
      rw [ih, keys_createStep]
      simp

theorem walk_keys_nodup (tag : Bool) (p : List String) :
    ∀ (i : Nat) (st : Store) (child : String), (keys st).Nodup →
      (keys (walk tag p i st child).1).Nodup := by
  intro i
  induction i with
  | zero =>
    intro st child h
    simpa [walk_zero] using h
  | succ i ih =>
    intro st child h
    cases hfe : findEntry st (joinDot (p.take (i + 1))) with
    | some e =>
      rw [walk_existing hfe]
      simpa [keys_linkStep] using h
    | none =>
      rw [walk_create hfe]
      simp only []
      refine ih _ _ ?_
      rw [keys_createStep]
      have hnot : joinDot (p.take (i + 1)) ∉ keys st := (findEntry_none_iff _ _).mp hfe
      simp [List.nodup_append, h, hnot]

theorem walk_keys_mono (tag : Bool) (p : List String) (i : Nat) (st : Store)
    (child : String) {r : String} (h : r ∈ keys st) :
    r ∈ keys (walk tag p i st child).1 := by
  rw [walk_keys]
  exact List.mem_append_left _ h

theorem parentOf_ne_none_mem_keys {st : Store} {r : String}
    (h : parentOf st r ≠ none) : r ∈ keys st := by
  simp only [parentOf] at h
  cases hfe : findEntry st r with
  | none => simp [hfe] at h
  | some e => exact findEntry_mem_keys hfe

theorem parentOf_append_of_mem (st st' : Store) {r : String} (h : r ∈ keys st) :
    parentOf (st ++ st') r = parentOf st r := by
  simp [parentOf, findEntry_append_left _ h]

theorem walk_parent_mono (tag : Bool) (p : List String) :
    ∀ (i : Nat) (st : Store) (child r : String), parentOf st r ≠ none →
      parentOf (walk tag p i st child).1 r ≠ none := by
  intro i
  induction i with
  | zero =>
    intro st child r h
    simpa [walk_zero] using h
  | succ i ih =>
    intro st child r h
    cases hfe : findEntry st (joinDot (p.take (i + 1))) with
    | some e =>
      rw [walk_existing hfe]
      exact parentOf_linkStep_ne_none _ _ _ h
    | none =>
      rw [walk_create hfe]
      dsimp only
      apply ih
      have hr : r ∈ keys st := parentOf_ne_none_mem_keys h
      simp only [createStep]
      apply parentOf_linkStep_ne_none
      rw [parentOf_append_of_mem _ _ hr]
      exact h

theorem walk_parent_child (tag : Bool) (p : List String) :
    ∀ (i : Nat) (st : Store) (child : String), 1 ≤ i → child ∈ keys st →
      parentOf (walk tag p i st child).1 child ≠ none := by
  intro i
  induction i with
  | zero =>
    intro st child h _
    omega
  | succ i ih =>
    intro st child _ hchild
    cases hfe : findEntry st (joinDot (p.take (i + 1))) with
    | some e =>
      rw [walk_existing hfe]
      rw [parentOf_linkStep_child _ _ hchild]
      simp
    | none =>
      rw [walk_create hfe]
      dsimp only
      apply walk_parent_mono
      simp only [createStep]
      rw [parentOf_linkStep_child]
      · simp
      · rw [keys_append]
        exact List.mem_append_left _ hchild

theorem walk_cov (tag : Bool) (p : List String) :
    ∀ (i : Nat) (st : Store) (child : String) (k : Nat), 1 ≤ k → k ≤ i →
      joinDot (p.take k) ∈ keys (walk tag p i st child).1 ∨
        ∃ j, k < j ∧ j ≤ i ∧ joinDot (p.take j) ∈ keys (walk tag p i st child).1 := by
  intro i
  induction i with
  | zero =>
    intro st child k h1 h2
    omega
  | succ i ih =>
    intro st child k h1 h2
    cases hfe : findEntry st (joinDot (p.take (i + 1))) with
    | some e =>
      rw [walk_existing hfe]
      dsimp only
      rw [keys_linkStep]
      by_cases hk : k = i + 1
      · subst hk
        exact Or.inl (findEntry_mem_keys hfe)
      · exact Or.inr ⟨i + 1, by omega, by omega, findEntry_mem_keys hfe⟩
    | none =>
      rw [walk_create hfe]
      dsimp only
      by_cases hk : k = i + 1
      · subst hk
        left
        apply walk_keys_mono
        rw [keys_createStep]
        simp
      · have hki : k ≤ i := by omega
        rcases ih (createStep tag p i st child) (joinDot (p.take (i + 1))) k h1 hki with
          h | ⟨j, hj1, hj2, hj3⟩
        · exact Or.inl h
        · exact Or.inr ⟨j, hj1, by omega, hj3⟩

theorem walk_paths (tag : Bool) (p : List String) :
    ∀ (i : Nat) (st : Store) (child r : String),
      pathOf (walk tag p i st child).1 r = pathOf st r ∨
        ∃ j, 1 ≤ j ∧ j ≤ i ∧ r = joinDot (p.take j) ∧
          pathOf st r = none ∧
          pathOf (walk tag p i st child).1 r = some (p.take j) ∧
          (2 ≤ j → parentOf (walk tag p i st child).1 r ≠ none) ∧
          (∀ k, 1 ≤ k → k < j →
            joinDot (p.take k) ∈ keys (walk tag p i st child).1 ∨
              ∃ j', k < j' ∧ j' < j ∧
                joinDot (p.take j') ∈ keys (walk tag p i st child).1) := by
  intro i
  induction i with
  | zero =>
    intro st child r
    left
    simp [walk_zero]
  | succ i ih =>
    intro st child r
    cases hfe : findEntry st (joinDot (p.take (i + 1))) with
    | some e =>
      rw [walk_existing hfe]
      dsimp only
      left
      rw [pathOf_linkStep]
    | none =>
      rw [walk_create hfe]
      dsimp only
      have hroute : joinDot (p.take (i + 1)) ∉ keys st := (findEntry_none_iff _ _).mp hfe
      rcases ih (createStep tag p i st child) (joinDot (p.take (i + 1))) r with
        hL | ⟨j, hj1, hj2, hj3, hj4, hj5, hj6, hj7⟩
      · by_cases hr : r ∈ keys st
        · left
          rw [hL, pathOf_createStep_old _ _ _ _ _ hr]
        · by_cases hrr : r = joinDot (p.take (i + 1))
          · subst hrr
            right
            refine ⟨i + 1, by omega, by omega, rfl, (pathOf_none_iff _ _).mpr hr, ?_, ?_, ?_⟩
            · rw [hL, pathOf_createStep_new _ _ _ _ _ hroute]
            · intro h2
              apply walk_parent_child
              · omega
              · rw [keys_createStep]
                simp
            · intro k hk1 hk2
              have hki : k ≤ i := by omega
              rcases walk_cov tag p i (createStep tag p i st child)
                  (joinDot (p.take (i + 1))) k hk1 hki with h | ⟨j', h1, h2, h3⟩
              · exact Or.inl h
              · exact Or.inr ⟨j', h1, by omega, h3⟩
          · left
            rw [hL, pathOf_createStep_none _ _ _ _ _ hr hrr,
              (pathOf_none_iff st r).mpr hr]
      · right
        have hrk : r ∉ keys st := by
          have : r ∉ keys (createStep tag p i st child) := (pathOf_none_iff _ _).mp hj4
          rw [keys_createStep] at this
          intro hmem
          exact this (List.mem_append_left _ hmem)
        exact ⟨j, hj1, by omega, hj3, (pathOf_none_iff st r).mpr hrk, hj5, hj6,
          fun k hk1 hk2 => by
            rcases hj7 k hk1 hk2 with h | ⟨j', h1, h2, h3⟩
            · exact Or.inl h
            · exact Or.inr ⟨j', h1, h2, h3⟩⟩

theorem completeTree_nil (tag : Bool) (st : Store) :
    completeTree tag [] st = (st, []) := rfl

theorem completeTree_cons (tag : Bool) (p : List String)
    (rest : List (List String)) (st : Store) :
    completeTree tag (p :: rest) st =
      ((completeTree tag rest (walk tag p (p.length - 1) st (joinDot p)).1).1,
        (walk tag p (p.length - 1) st (joinDot p)).2 ++
          (completeTree tag rest (walk tag p (p.length - 1) st (joinDot p)).1).2) :=
  rfl

theorem completeTree_keys (tag : Bool) :
    ∀ (l : List (List String)) (st : Store),
      keys (completeTree tag l st).1 = keys st ++ (completeTree tag l st).2 := by
  intro l
  induction l with
  | nil =>
    intro st
    simp [completeTree_nil]
  | cons p rest ih =>
    intro st
    rw [completeTree_cons]
    dsimp only
    rw [ih, walk_keys]
    simp

theorem completeTree_keys_nodup (tag : Bool) :
    ∀ (l : List (List String)) (st : Store), (keys st).Nodup →
      (keys (completeTree tag l st).1).Nodup := by
  intro l
  induction l with
  | nil =>
    intro st h
    simpa [completeTree_nil] using h
  | cons p rest ih =>
    intro st h
    rw [completeTree_cons]
    dsimp only
    exact ih _ (walk_keys_nodup tag p _ st _ h)

theorem completeTree_keys_mono (tag : Bool) (l : List (List String)) (st : Store)
    {r : String} (h : r ∈ keys st) : r ∈ keys (completeTree tag l st).1 := by
  rw [completeTree_keys]
  exact List.mem_append_left _ h

/-- Every strictly shorter nonempty prefix route of `q` is present, or some
longer (but still proper) prefix route is; the delegation pattern the
walk's early-stop rule produces. -/
def covered (st : Store) (q : List String) : Prop :=
  ∀ k, 1 ≤ k → k < q.length →
    joinDot (q.take k) ∈ keys st ∨
      ∃ j, k < j ∧ j < q.length ∧ joinDot (q.take j) ∈ keys st

theorem covered_mono {st st' : Store}
    (h : ∀ x, x ∈ keys st → x ∈ keys st') {q : List String}
    (hc : covered st q) : covered st' q := by
  intro k hk1 hk2
  rcases hc k hk1 hk2 with hx | ⟨j, h1, h2, h3⟩
  · exact Or.inl (h _ hx)
  · exact Or.inr ⟨j, h1, h2, h _ h3⟩

/-- Every entry's route is the dot-join of its path. -/
def ConsStore (st : Store) : Prop :=
  ∀ r q, pathOf st r = some q → r = joinDot q

/-- Every entry's path lies in the prefix closure and is nonempty. -/
def PathsIn (st : Store) (PC : List (List String)) : Prop :=
  ∀ r q, pathOf st r = some q → q ∈ PC ∧ q ≠ []

/-- Every non-`none` parent link is canonical: it is the route of the
entry's path minus its last segment, and that route is present. -/
def ParStore (st : Store) : Prop :=
  ∀ r q, pathOf st r = some q → parentOf st r ≠ none →
    2 ≤ q.length ∧ parentOf st r = some (joinDot q.dropLast) ∧
      joinDot q.dropLast ∈ keys st

/-- Every entry is either still pending or its prefix chain is covered. -/
def GoodStore (st : Store) (rem : List (List String)) : Prop :=
  ∀ r q, pathOf st r = some q → q ∈ rem ∨ covered st q

/-- A parentless entry is a root or still pending. -/
def NpStore (st : Store) (rem : List (List String)) : Prop :=
  ∀ r q, pathOf st r = some q → parentOf st r = none →
    q.length = 1 ∨ q ∈ rem

theorem walk_cons_store (tag : Bool) (p : List String) (i : Nat) (st : Store)
    (child : String) (h : ConsStore st) :
    ConsStore (walk tag p i st child).1 := by
  intro r q hq
  rcases walk_paths tag p i st child r with hL | ⟨j, _, _, hj3, _, hj5, _, _⟩
  · rw [hL] at hq
    exact h r q hq
  · rw [hj5] at hq
    obtain rfl : p.take j = q := Option.some.inj hq
    exact hj3

theorem walk_paths_in (tag : Bool) (p : List String) (i : Nat) (st : Store)
    (child : String) (PC : List (List String)) (h : PathsIn st PC)
    (hpPC : ∀ j, 1 ≤ j → j ≤ p.length → p.take j ∈ PC)
    (hi : i ≤ p.length) (hp : p ≠ []) :
    PathsIn (walk tag p i st child).1 PC := by
  intro r q hq
  rcases walk_paths tag p i st child r with hL | ⟨j, hj1, hj2, _, _, hj5, _, _⟩
  · rw [hL] at hq
    exact h r q hq
  · rw [hj5] at hq
    obtain rfl : p.take j = q := Option.some.inj hq
    refine ⟨hpPC j hj1 (by omega), ?_⟩
    have : p.length ≠ 0 := fun hz => hp (List.length_eq_zero.mp hz)
    intro hz
    have := List.length_eq_zero.mpr hz
    rw [List.length_take] at this
    omega

theorem walk_parent_none_rev (tag : Bool) (p : List String) (i : Nat)
    (st : Store) (child r : String)
    (h : parentOf (walk tag p i st child).1 r = none) : parentOf st r = none := by
  by_contra hne
  exact walk_parent_mono tag p i st child r hne h

theorem walk_covered_self (tag : Bool) (p : List String) (st : Store)
    (child : String) (hp : p ≠ []) :
    covered (walk tag p (p.length - 1) st child).1 p := by
  intro k hk1 hk2
  have hlen : 1 ≤ p.length := by
    cases p with
    | nil => exact absurd rfl hp
    | cons a l => simp
  have hk : k ≤ p.length - 1 := by omega
  rcases walk_cov tag p (p.length - 1) st child k hk1 hk with h | ⟨j, h1, h2, h3⟩
  · exact Or.inl h
  · exact Or.inr ⟨j, h1, by omega, h3⟩

theorem walk_good (tag : Bool) (p : List String) (st : Store)
    (rem : List (List String)) (hg : GoodStore st (p :: rem)) (hp : p ≠ []) :
    GoodStore (walk tag p (p.length - 1) st (joinDot p)).1 rem := by
  intro r q hq
  rcases walk_paths tag p (p.length - 1) st (joinDot p) r with
    hL | ⟨j, hj1, hj2, hj3, hj4, hj5, hj6, hj7⟩
  · rw [hL] at hq
    rcases hg r q hq with hrem | hcov
    · rcases List.mem_cons.mp hrem with h | h
      · subst h
        exact Or.inr (walk_covered_self tag q st (joinDot q) hp)
      · exact Or.inl h
    · exact Or.inr (covered_mono (fun x hx => walk_keys_mono tag p _ st _ hx) hcov)
  · rw [hj5] at hq
    obtain rfl : p.take j = q := Option.some.inj hq
    right
    have hlen : 1 ≤ p.length := by
      cases p with
      | nil =>
        simp at hj2
        omega
      | cons a l => simp
    have hjlen : j < p.length ∨ j = p.length := by omega
    have hqlen : (p.take j).length = j := by
      rw [List.length_take]
      omega
    intro k hk1 hk2
    rw [hqlen] at hk2
    have htt : (p.take j).take k = p.take k := by
      rw [List.take_take]
      congr 1
      omega
    rcases hj7 k hk1 hk2 with h | ⟨j', h1, h2, h3⟩
    · rw [htt]
      exact Or.inl h
    · refine Or.inr ⟨j', h1, by omega, ?_⟩
      have htt' : (p.take j).take j' = p.take j' := by
        rw [List.take_take]
        congr 1
        omega
      rw [htt']
      exact h3

theorem walk_np (tag : Bool) (p : List String) (st : Store)
    (rem : List (List String)) (hnp : NpStore st (p :: rem)) (hcons : ConsStore st)
    (hp : p ≠ []) (hchild : joinDot p ∈ keys st) :
    NpStore (walk tag p (p.length - 1) st (joinDot p)).1 rem := by
  intro r q hq hpar
  rcases walk_paths tag p (p.length - 1) st (joinDot p) r with
    hL | ⟨j, hj1, hj2, hj3, hj4, hj5, hj6, hj7⟩
  · rw [hL] at hq
    have hparst : parentOf st r = none := walk_parent_none_rev _ _ _ _ _ _ hpar
    rcases hnp r q hq hparst with h1 | h1
    · exact Or.inl h1
    · rcases List.mem_cons.mp h1 with h | h
      · subst h
        by_cases hlen : q.length = 1
        · exact Or.inl hlen
        · exfalso
          have hr : r = joinDot q := hcons r q hq
          have hge : 1 ≤ q.length - 1 := by
            have : q.length ≠ 0 := fun hz => hp (List.length_eq_zero.mp hz)
            omega
          subst hr
          exact walk_parent_child tag q (q.length - 1) st (joinDot q) hge hchild hpar
      · exact Or.inr h
  · rw [hj5] at hq
    obtain rfl : p.take j = q := Option.some.inj hq
    by_cases hj : 2 ≤ j
    · exact absurd hpar (hj6 hj)
    · left
      have hj1' : j = 1 := by omega
      subst hj1'
      rw [List.length_take]
      have hl1 : 1 ≤ p.length := by
        cases p with
        | nil => exact absurd rfl hp
        | cons a l => simp
      omega

theorem parStore_addChild (st : Store) (pr cr : String) (h : ParStore st) :
    ParStore (addChild st pr cr) := by
  intro r q hq hpar
  rw [pathOf_addChild] at hq
  rw [parentOf_addChild] at hpar ⊢
  have := h r q hq hpar
  simpa [keys_addChild] using this

theorem pathOf_append_of_mem (st st' : Store) {r : String} (h : r ∈ keys st) :
    pathOf (st ++ st') r = pathOf st r := by
  simp [pathOf, findEntry_append_left _ h]

theorem parStore_append_fresh (st : Store) (k : String) (q : List String)
    (tag : Bool) (h : ParStore st) :
    ParStore (st ++ [(k, ⟨q, none, [], tag⟩)]) := by
  intro r qq hq hpar
  by_cases hr : r ∈ keys st
  · rw [pathOf_append_of_mem _ _ hr] at hq
    rw [parentOf_append_of_mem _ _ hr] at hpar ⊢
    have := h r qq hq hpar
    refine ⟨this.1, this.2.1, ?_⟩
    rw [keys_append]
    exact List.mem_append_left _ this.2.2
  · exfalso
    apply hpar
    simp only [parentOf]
    rw [findEntry_append_right _ hr]
    by_cases hk : k = r
    · simp [findEntry, hk]
    · simp [findEntry, hk]

theorem parStore_setParent (st : Store) {c v : String} {qc : List String}
    (hqc : pathOf st c = some qc) (h2 : 2 ≤ qc.length)
    (hv : v = joinDot qc.dropLast) (hvmem : v ∈ keys st)
    (h : ParStore st) : ParStore (setParent st c v) := by
  intro r q hq hpar
  rw [pathOf_setParent] at hq
  have hcmem : c ∈ keys st := by
    simp only [pathOf] at hqc
    cases hfe : findEntry st c with
    | none => simp [hfe] at hqc
    | some e => exact findEntry_mem_keys hfe
  by_cases hr : r = c
  · subst hr
    have hqe : q = qc := by
      rw [hq] at hqc
      exact Option.some.inj hqc
    subst hqe
    rw [parentOf_setParent_self st v hcmem]
    refine ⟨h2, by rw [hv], ?_⟩
    rw [keys_setParent, ← hv]
    exact hvmem
  · rw [parentOf_setParent_other st c v hr] at hpar ⊢
    have := h r q hq hpar
    refine ⟨this.1, this.2.1, ?_⟩
    rw [keys_setParent]
    exact this.2.2

theorem parStore_linkStep (st : Store) {sub c : String} {qc : List String}
    (hqc : pathOf st c = some qc) (h2 : 2 ≤ qc.length)
    (hsub : sub = joinDot qc.dropLast) (hsubmem : sub ∈ keys st)
    (h : ParStore st) : ParStore (linkStep st sub c) := by
  simp only [linkStep]
  refine parStore_setParent (addChild st sub c) ?_ h2 hsub ?_ (parStore_addChild _ _ _ h)
  · rw [pathOf_addChild]
    exact hqc
  · rw [keys_addChild]
    exact hsubmem

theorem path_at_route {st : Store} {PC : List (List String)}
    (hinj : ∀ a ∈ PC, ∀ b ∈ PC, joinDot a = joinDot b → a = b)
    (hPI : PathsIn st PC) (hcons : ConsStore st)
    {q : List String} (hqPC : q ∈ PC) (hmem : joinDot q ∈ keys st) :
    pathOf st (joinDot q) = some q := by
  rcases mem_keys_findEntry hmem with ⟨e, he⟩
  have hpe : pathOf st (joinDot q) = some e.path := by simp [pathOf, he]
  have hce := hcons _ _ hpe
  have hePC := (hPI _ _ hpe).1
  have heq : e.path = q := hinj _ hePC _ hqPC hce.symm
  rw [hpe, heq]

theorem dropLast_take_eq {p : List String} {n : Nat} (h2 : n ≤ p.length) :
    (p.take n).dropLast = p.take (n - 1) := by
  rw [List.dropLast_eq_take, List.length_take, List.take_take]
  congr 1
  omega

theorem pathsIn_createStep (tag : Bool) (p : List String) (i : Nat) (st : Store)
    (c : String) (PC : List (List String)) (h : PathsIn st PC)
    (hnew : p.take (i + 1) ∈ PC) (hne : p.take (i + 1) ≠ [])
    (hfe : findEntry st (joinDot (p.take (i + 1))) = none) :
    PathsIn (createStep tag p i st c) PC := by
  intro r q hq
  by_cases hr : r ∈ keys st
  · rw [pathOf_createStep_old _ _ _ _ _ hr] at hq
    exact h r q hq
  · by_cases hrr : r = joinDot (p.take (i + 1))
    · subst hrr
      rw [pathOf_createStep_new _ _ _ _ _ ((findEntry_none_iff _ _).mp hfe)] at hq
      have hqe : q = p.take (i + 1) := (Option.some.inj hq).symm
      subst hqe
      exact ⟨hnew, hne⟩
    · rw [pathOf_createStep_none _ _ _ _ _ hr hrr] at hq
      exact Option.noConfusion hq

theorem consStore_createStep (tag : Bool) (p : List String) (i : Nat) (st : Store)
    (c : String) (h : ConsStore st)
    (hfe : findEntry st (joinDot (p.take (i + 1))) = none) :
    ConsStore (createStep tag p i st c) := by
  intro r q hq
  by_cases hr : r ∈ keys st
  · rw [pathOf_createStep_old _ _ _ _ _ hr] at hq
    exact h r q hq
  · by_cases hrr : r = joinDot (p.take (i + 1))
    · subst hrr
      rw [pathOf_createStep_new _ _ _ _ _ ((findEntry_none_iff _ _).mp hfe)] at hq
      have hqe : q = p.take (i + 1) := (Option.some.inj hq).symm
      rw [hqe]
    · rw [pathOf_createStep_none _ _ _ _ _ hr hrr] at hq
      exact Option.noConfusion hq

theorem walk_par (tag : Bool) (p : List String) (PC : List (List String))
    (hinj : ∀ a ∈ PC, ∀ b ∈ PC, joinDot a = joinDot b → a = b)
    (hpPC : ∀ j, 1 ≤ j → j ≤ p.length → p.take j ∈ PC) :
    ∀ (i : Nat) (st : Store), i + 1 ≤ p.length →
      PathsIn st PC → ConsStore st → ParStore st →
      joinDot (p.take (i + 1)) ∈ keys st →
      ParStore (walk tag p i st (joinDot (p.take (i + 1)))).1 := by
  intro i
  induction i with
  | zero =>
    intro st _ _ _ hpar _
    simpa [walk_zero] using hpar
  | succ i ih =>
    intro st hlen hPI hcons hpar hchild
    have hqcPC : p.take (i + 2) ∈ PC := hpPC (i + 2) (by omega) hlen
    have hqc : pathOf st (joinDot (p.take (i + 2))) = some (p.take (i + 2)) :=
      path_at_route hinj hPI hcons hqcPC hchild
    have hlen2 : (p.take (i + 2)).length = i + 2 := by
      rw [List.length_take]
      omega
    have hdl : (p.take (i + 2)).dropLast = p.take (i + 1) :=
      dropLast_take_eq hlen
    cases hfe : findEntry st (joinDot (p.take (i + 1))) with
    | some e =>
      rw [walk_existing hfe]
      dsimp only
      refine parStore_linkStep st hqc (by omega) ?_ (findEntry_mem_keys hfe) hpar
      rw [hdl]
    | none =>
      rw [walk_create hfe]
      dsimp only
      have hroute : joinDot (p.take (i + 1)) ∉ keys st := (findEntry_none_iff _ _).mp hfe
      have hpne : p.take (i + 1) ≠ [] := by
        intro hz
        have := List.length_eq_zero.mpr hz
        rw [List.length_take] at this
        omega
      have hchildmem : joinDot (p.take (i + 2)) ∈ keys st := hchild
      -- ParStore of the createStep store
      have hpar1 : ParStore (st ++ [(joinDot (p.take (i + 1)),
          ⟨p.take (i + 1), none, [], tag⟩)]) :=
        parStore_append_fresh st _ _ tag hpar
      have hqc1 : pathOf (st ++ [(joinDot (p.take (i + 1)),
          ⟨p.take (i + 1), none, [], tag⟩)]) (joinDot (p.take (i + 2))) =
          some (p.take (i + 2)) := by
        rw [pathOf_append_of_mem _ _ hchildmem]
        exact hqc
      have hpar2 : ParStore (createStep tag p i st (joinDot (p.take (i + 2)))) := by
        simp only [createStep]
        refine parStore_linkStep _ hqc1 (by omega) ?_ ?_ hpar1
        · rw [hdl]
        · rw [keys_append]
          simp [keys]
      refine ih (createStep tag p i st (joinDot (p.take (i + 2)))) (by omega) ?_ ?_ hpar2 ?_
      · exact pathsIn_createStep tag p i st _ PC hPI
          (hpPC (i + 1) (by omega) (by omega)) hpne hfe
      · exact consStore_createStep tag p i st _ hcons hfe
      · rw [keys_createStep]
        simp

theorem walk_par_top (tag : Bool) (p : List String) (PC : List (List String))
    (hinj : ∀ a ∈ PC, ∀ b ∈ PC, joinDot a = joinDot b → a = b)
    (hpPC : ∀ j, 1 ≤ j → j ≤ p.length → p.take j ∈ PC)
    (st : Store) (hp : p ≠ []) (hPI : PathsIn st PC) (hcons : ConsStore st)
    (hpar : ParStore st) (hchild : joinDot p ∈ keys st) :
    ParStore (walk tag p (p.length - 1) st (joinDot p)).1 := by
  have hlen : 1 ≤ p.length := by
    cases p with
    | nil => exact absurd rfl hp
    | cons a l => simp
  have hpp : p.take (p.length - 1 + 1) = p := by
    rw [show p.length - 1 + 1 = p.length by omega, List.take_length]
  have h := walk_par tag p PC hinj hpPC (p.length - 1) st (by omega) hPI hcons hpar
    (by rw [hpp]; exact hchild)
  rwa [hpp] at h

theorem take_mem_prefClosure {inputs : List (List String)} {p : List String}
    (hp : p ∈ inputs) {k : Nat} (h1 : 1 ≤ k) (h2 : k ≤ p.length) :
    p.take k ∈ prefClosure inputs := by
  simp only [prefClosure, List.mem_flatMap]
  refine ⟨p, hp, ?_⟩
  simp only [prefList, List.mem_map, List.mem_range]
  exact ⟨k - 1, by omega, by congr 1; omega⟩

theorem self_mem_prefClosure {inputs : List (List String)} {p : List String}
    (hp : p ∈ inputs) (hne : p ≠ []) : p ∈ prefClosure inputs := by
  have hlen : 1 ≤ p.length := by
    cases p with
    | nil => exact absurd rfl hne
    | cons a l => simp
  have h := take_mem_prefClosure hp hlen le_rfl
  rwa [List.take_length] at h

theorem prefClosure_take {inputs : List (List String)} {q : List String}
    (hq : q ∈ prefClosure inputs) {j : Nat} (h1 : 1 ≤ j) (h2 : j ≤ q.length) :
    q.take j ∈ prefClosure inputs := by
  simp only [prefClosure, List.mem_flatMap, prefList, List.mem_map,
    List.mem_range] at hq
  rcases hq with ⟨p, hp, k, hk, rfl⟩
  have hlen : (p.take (k + 1)).length ≤ k + 1 := by
    rw [List.length_take]
    omega
  have htt : (p.take (k + 1)).take j = p.take j := by
    rw [List.take_take]
    congr 1
    omega
  rw [htt]
  refine take_mem_prefClosure hp h1 ?_
  have := List.length_take_le (k + 1) p
  rw [List.length_take] at h2
  omega

theorem completeTree_main (tag : Bool) (PC : List (List String))
    (hinj : ∀ a ∈ PC, ∀ b ∈ PC, joinDot a = joinDot b → a = b) :
    ∀ (l : List (List String)) (st : Store),
      (∀ p ∈ l, p ≠ [] ∧ ∀ j, 1 ≤ j → j ≤ p.length → p.take j ∈ PC) →
      (∀ p ∈ l, joinDot p ∈ keys st) →
      ConsStore st → PathsIn st PC → ParStore st →
      GoodStore st l → NpStore st l →
      ConsStore (completeTree tag l st).1 ∧ PathsIn (completeTree tag l st).1 PC ∧
        ParStore (completeTree tag l st).1 ∧ GoodStore (completeTree tag l st).1 [] ∧
        NpStore (completeTree tag l st).1 [] := by
  intro l
  induction l with
  | nil =>
    intro st _ _ hc hpi hpar hg hnp
    rw [completeTree_nil]
    exact ⟨hc, hpi, hpar, hg, hnp⟩
  | cons p rest ih =>
    intro st hl hkeys hc hpi hpar hg hnp
    obtain ⟨hpne, hpPC⟩ := hl p (by simp)
    have hchild : joinDot p ∈ keys st := hkeys p (by simp)
    rw [completeTree_cons]
    dsimp only
    refine ih ((walk tag p (p.length - 1) st (joinDot p)).1)
      (fun q hq => hl q (by simp [hq])) ?_ ?_ ?_ ?_ ?_ ?_
    · intro q hq
      exact walk_keys_mono tag p _ st _ (hkeys q (by simp [hq]))
    · exact walk_cons_store tag p _ st _ hc
    · exact walk_paths_in tag p _ st _ PC hpi hpPC (Nat.sub_le _ _) hpne
    · exact walk_par_top tag p PC hinj hpPC st hpne hpi hc hpar hchild
    · exact walk_good tag p st rest hg hpne
    · exact walk_np tag p st rest hnp hc hpne hchild

theorem initStore_findEntry (tag : Bool) :
    ∀ (inputs : List (List String)) (r : String) (e : ModEntry),
      findEntry (initStore tag inputs) r = some e →
      e.path ∈ inputs ∧ r = joinDot e.path ∧ e.parent = none := by
  intro inputs
  induction inputs with
  | nil =>
    intro r e h
    exact Option.noConfusion h
  | cons p rest ih =>
    intro r e h
    simp only [initStore, List.map_cons, findEntry] at h
    by_cases hr : joinDot p = r
    · rw [if_pos hr] at h
      have he : e = ⟨p, none, [], tag⟩ := (Option.some.inj h).symm
      subst he
      exact ⟨by simp, hr.symm, rfl⟩
    · rw [if_neg hr] at h
      have hres := ih r e h
      exact ⟨by simp [hres.1], hres.2.1, hres.2.2⟩

theorem keys_initStore (tag : Bool) (inputs : List (List String)) :
    keys (initStore tag inputs) = inputs.map joinDot := by
  simp [keys, initStore, List.map_map, Function.comp]

theorem good_store_all (stF : Store) (PC : List (List String))
    (hinj : ∀ a ∈ PC, ∀ b ∈ PC, joinDot a = joinDot b → a = b)
    (hcons : ConsStore stF) (hPI : PathsIn stF PC)
    (hPCtake : ∀ q ∈ PC, ∀ j, 1 ≤ j → j ≤ q.length → q.take j ∈ PC)
    (hg : GoodStore stF []) :
    ∀ r q, pathOf stF r = some q → ∀ k, 1 ≤ k → k < q.length →
      joinDot (q.take k) ∈ keys stF := by
  have main : ∀ n r q, pathOf stF r = some q → q.length ≤ n →
      ∀ k, 1 ≤ k → k < q.length → joinDot (q.take k) ∈ keys stF := by
    intro n
    induction n with
    | zero =>
      intro r q hq hn k h1 h2
      omega
    | succ n ihn =>
      intro r q hq hn k h1 h2
      have hcov : covered stF q := (hg r q hq).resolve_left (List.not_mem_nil q)
      rcases hcov k h1 h2 with h | ⟨j, hj1, hj2, hj3⟩
      · exact h
      · rcases mem_keys_findEntry hj3 with ⟨e, he⟩
        have hpe : pathOf stF (joinDot (q.take j)) = some e.path := by
          simp [pathOf, he]
        have hce := hcons _ _ hpe
        have hePC := (hPI _ _ hpe).1
        have hqPC := (hPI _ _ hq).1
        have hqtakePC : q.take j ∈ PC := hPCtake q hqPC j (by omega) (by omega)
        have heq : e.path = q.take j := hinj _ hePC _ hqtakePC hce.symm
        have hlenq : e.path.length = j := by
          rw [heq, List.length_take]
          omega
        have hres := ihn _ _ hpe (by omega) k h1 (by omega)
        rwa [heq, List.take_take, min_eq_left (le_of_lt hj1)] at hres
  intro r q hq
  exact main q.length r q hq le_rfl

theorem parent_step_shorter (stF : Store) (PC : List (List String))
    (hinj : ∀ a ∈ PC, ∀ b ∈ PC, joinDot a = joinDot b → a = b)
    (hcons : ConsStore stF) (hPI : PathsIn stF PC)
    (hPCtake : ∀ q ∈ PC, ∀ j, 1 ≤ j → j ≤ q.length → q.take j ∈ PC)
    (hpar : ParStore stF) {r v : String} (h : parentOf stF r = some v) :
    ∃ q qv, pathOf stF r = some q ∧ pathOf stF v = some qv ∧
      qv.length + 1 ≤ q.length := by
  have hrk : r ∈ keys stF := parentOf_ne_none_mem_keys (by rw [h]; simp)
  rcases mem_keys_findEntry hrk with ⟨e, he⟩
  have hq : pathOf stF r = some e.path := by simp [pathOf, he]
  have hps := hpar r e.path hq (by rw [h]; simp)
  have hv : v = joinDot e.path.dropLast := by
    rw [h] at hps
    exact Option.some.inj hps.2.1
  have hvmem : v ∈ keys stF := by
    rw [hv]
    exact hps.2.2
  rcases mem_keys_findEntry hvmem with ⟨e2, he2⟩
  have hqv : pathOf stF v = some e2.path := by simp [pathOf, he2]
  have he2PC := (hPI _ _ hqv).1
  have hePC := (hPI _ _ hq).1
  have hdl : e.path.dropLast = e.path.take (e.path.length - 1) :=
    List.dropLast_eq_take _
  have hdPC : e.path.dropLast ∈ PC := by
    rw [hdl]
    exact hPCtake _ hePC _ (by omega) (by omega)
  have hce : v = joinDot e2.path := hcons _ _ hqv
  have he2eq : e2.path = e.path.dropLast := by
    refine hinj _ he2PC _ hdPC ?_
    rw [← hce, hv]
  refine ⟨e.path, e2.path, hq, hqv, ?_⟩
  rw [he2eq, hdl, List.length_take]
  omega

theorem parentIter_shorter (stF : Store) (PC : List (List String))
    (hinj : ∀ a ∈ PC, ∀ b ∈ PC, joinDot a = joinDot b → a = b)
    (hcons : ConsStore stF) (hPI : PathsIn stF PC)
    (hPCtake : ∀ q ∈ PC, ∀ j, 1 ≤ j → j ≤ q.length → q.take j ∈ PC)
    (hpar : ParStore stF) :
    ∀ (n : Nat) (r s : String), parentIter stF n r = some s →
      ∀ q qs, pathOf stF r = some q → pathOf stF s = some qs →
        qs.length + n ≤ q.length := by
  intro n
  induction n with
  | zero =>
    intro r s hit q qs hq hqs
    have hrs : r = s := Option.some.inj hit
    subst hrs
    rw [hq] at hqs
    rw [Option.some.inj hqs]
    omega
  | succ n ihn =>
    intro r s hit q qs hq hqs
    simp only [parentIter] at hit
    cases hp : parentOf stF r with
    | none =>
      rw [hp] at hit
      exact Option.noConfusion hit
    | some v =>
      rw [hp] at hit
      simp only [Option.some_bind] at hit
      rcases parent_step_shorter stF PC hinj hcons hPI hPCtake hpar hp with
        ⟨q', qv, hq', hqv, hlt⟩
      have hqq : q' = q := by
        rw [hq] at hq'
        exact (Option.some.inj hq').symm
      subst hqq
      have := ihn v s hit qv qs hqv hqs
      omega

theorem complete_module_tree_keys (tag : Bool) (inputs : List (List String)) :
    keys (complete_module_tree tag inputs).1 = resultRoutes tag inputs := by
  unfold complete_module_tree resultRoutes
  rw [completeTree_keys, keys_initStore]
  rfl

theorem resultRoutes_nodup (tag : Bool) (inputs : List (List String))
    (hnd : (inputs.map joinDot).Nodup) : (resultRoutes tag inputs).Nodup := by
  rw [← complete_module_tree_keys]
  unfold complete_module_tree
  refine completeTree_keys_nodup tag inputs _ ?_
  rw [keys_initStore]
  exact hnd

/-- C2: For every finite set of leaf modules with non-empty paths (under the
data-model invariants of spec section 3: input routes are unique, and path
segments are identifiers, so dot-joining is injective on the prefix
closure), after Tree Completion every proper prefix of every leaf's path
exists exactly once as a module in the result (the returned module list has
no duplicate routes, lists exactly the store's routes, and contains each
proper prefix route with multiplicity one), and the result is a forest:
a module is parentless exactly when its path has length 1 (a root), every
non-root's parent link is the unique immediate-prefix module which exists
in the result, and the parent relation has no cycles. -/
theorem C2_tree_completion (tag : Bool) (inputs : List (List String))
    (hne : ∀ p ∈ inputs, p ≠ [])
    (hinj : ∀ a ∈ prefClosure inputs, ∀ b ∈ prefClosure inputs,
      joinDot a = joinDot b → a = b)
    (hnd : (inputs.map joinDot).Nodup) :
    ((resultRoutes tag inputs).Nodup ∧
      keys (complete_module_tree tag inputs).1 = resultRoutes tag inputs) ∧
    (∀ p ∈ inputs, ∀ k, 1 ≤ k → k < p.length →
      (resultRoutes tag inputs).count (joinDot (p.take k)) = 1) ∧
    (∀ r q, pathOf (complete_module_tree tag inputs).1 r = some q →
      (q.length = 1 ↔ parentOf (complete_module_tree tag inputs).1 r = none) ∧
      (2 ≤ q.length →
        parentOf (complete_module_tree tag inputs).1 r =
            some (joinDot q.dropLast) ∧
          joinDot q.dropLast ∈ keys (complete_module_tree tag inputs).1)) ∧
    (∀ (n : Nat) (r : String), r ∈ keys (complete_module_tree tag inputs).1 →
      parentIter (complete_module_tree tag inputs).1 (n + 1) r ≠ some r) := by
  have hl : ∀ p ∈ inputs, p ≠ [] ∧
      ∀ j, 1 ≤ j → j ≤ p.length → p.take j ∈ prefClosure inputs :=
    fun p hp => ⟨hne p hp, fun j h1 h2 => take_mem_prefClosure hp h1 h2⟩
  have hkeys0 : ∀ p ∈ inputs, joinDot p ∈ keys (initStore tag inputs) := by
    intro p hp
    rw [keys_initStore]
    exact List.mem_map_of_mem _ hp
  have hcons0 : ConsStore (initStore tag inputs) := by
    intro r q hq
    simp only [pathOf] at hq
    cases hfe : findEntry (initStore tag inputs) r with
    | none =>
      rw [hfe] at hq
      exact Option.noConfusion hq
    | some e =>
      rw [hfe] at hq
      have hi := initStore_findEntry tag inputs r e hfe
      have hqe : q = e.path := (Option.some.inj hq).symm
      rw [hqe]
      exact hi.2.1
  have hentry : ∀ r q, pathOf (initStore tag inputs) r = some q → q ∈ inputs := by
    intro r q hq
    simp only [pathOf] at hq
    cases hfe : findEntry (initStore tag inputs) r with
    | none =>
      rw [hfe] at hq
      exact Option.noConfusion hq
    | some e =>
      rw [hfe] at hq
      have hi := initStore_findEntry tag inputs r e hfe
      have hqe : q = e.path := (Option.some.inj hq).symm
      rw [hqe]
      exact hi.1
  have hpi0 : PathsIn (initStore tag inputs) (prefClosure inputs) := by
    intro r q hq
    have hmem := hentry r q hq
    exact ⟨self_mem_prefClosure hmem (hne q hmem), hne q hmem⟩
  have hpar0 : ParStore (initStore tag inputs) := by
    intro r q hq hpar
    exfalso
    apply hpar
    simp only [parentOf]
    cases hfe : findEntry (initStore tag inputs) r with
    | none => rfl
    | some e =>
      have hi := initStore_findEntry tag inputs r e hfe
      simp [hi.2.2]
  have hgood0 : GoodStore (initStore tag inputs) inputs :=
    fun r q hq => Or.inl (hentry r q hq)
  have hnp0 : NpStore (initStore tag inputs) inputs :=
    fun r q hq _ => Or.inr (hentry r q hq)
  obtain ⟨hconsF, hpiF, hparF, hgoodF, hnpF⟩ :=
    completeTree_main tag (prefClosure inputs) hinj inputs (initStore tag inputs)
      hl hkeys0 hcons0 hpi0 hpar0 hgood0 hnp0
  have hPCtake : ∀ q ∈ prefClosure inputs, ∀ j, 1 ≤ j → j ≤ q.length →
      q.take j ∈ prefClosure inputs :=
    fun q hq j h1 h2 => prefClosure_take hq h1 h2
  have hall := good_store_all (complete_module_tree tag inputs).1
    (prefClosure inputs) hinj hconsF hpiF hPCtake hgoodF
  have hndF : (resultRoutes tag inputs).Nodup := resultRoutes_nodup tag inputs hnd
  have hkeysF : keys (complete_module_tree tag inputs).1 = resultRoutes tag inputs :=
    complete_module_tree_keys tag inputs
  refine ⟨⟨hndF, hkeysF⟩, ?_, ?_, ?_⟩
  · intro p hp k h1 h2
    have hmem : joinDot p ∈ keys (complete_module_tree tag inputs).1 := by
      rw [hkeysF]
      unfold resultRoutes
      exact List.mem_append_left _ (List.mem_map_of_mem _ hp)
    have hpPC : p ∈ prefClosure inputs := self_mem_prefClosure hp (hne p hp)
    have hpath : pathOf (complete_module_tree tag inputs).1 (joinDot p) = some p :=
      path_at_route hinj hpiF hconsF hpPC hmem
    have hpre : joinDot (p.take k) ∈ keys (complete_module_tree tag inputs).1 :=
      hall _ _ hpath k h1 h2
    rw [hkeysF] at hpre
    exact List.count_eq_one_of_mem hndF hpre
  · intro r q hq
    constructor
    · constructor
      · intro hlen1
        by_contra hne'
        have := hparF r q hq hne'
        omega
      · intro hnone
        rcases hnpF r q hq hnone with h | h
        · exact h
        · exact absurd h (List.not_mem_nil q)
    · intro h2
      have hne' : parentOf (complete_module_tree tag inputs).1 r ≠ none := by
        intro hnone
        rcases hnpF r q hq hnone with h | h
        · omega
        · exact absurd h (List.not_mem_nil q)
      have := hparF r q hq hne'
      exact ⟨this.2.1, this.2.2⟩
  · intro n r hr hcontra
    rcases mem_keys_findEntry hr with ⟨e, he⟩
    have hq : pathOf (complete_module_tree tag inputs).1 r = some e.path := by
      simp [pathOf, he]
    have := parentIter_shorter (complete_module_tree tag inputs).1
      (prefClosure inputs) hinj hconsF hpiF hPCtake hparF (n + 1) r r hcontra
      e.path e.path hq hq
    omega

/-- Witness for C2 on the concrete leaf set
`a.b.c`, `a.d` (so `a` and `a.b` must be synthesized). -/
theorem C2_tree_completion_witness :
    ((resultRoutes true [["a", "b", "c"], ["a", "d"]]).Nodup ∧
      keys (complete_module_tree true [["a", "b", "c"], ["a", "d"]]).1 =
        resultRoutes true [["a", "b", "c"], ["a", "d"]]) ∧
    (resultRoutes true [["a", "b", "c"], ["a", "d"]]).count
        (joinDot (["a", "b", "c"].take 1)) = 1 := by
  have h := C2_tree_completion true [["a", "b", "c"], ["a", "d"]]
    (by decide) (by decide) (by decide)
  exact ⟨h.1, h.2.1 ["a", "b", "c"] (by decide) 1 (by decide) (by decide)⟩

/-! ### Re-running completion on an already-complete forest (claim C7)

On an already-complete, already-linked forest every prefix lookup succeeds
immediately, so the walk always takes the existing-entry branch: no node is
created, but `parent.children.append(child)` still runs once per non-root
module, appending a duplicate entry to the parent's children list. -/

/-- The child routes appended to `r`'s children when the module list `l` is
re-completed over an already-complete forest: one occurrence of
`joinDot p` for every non-root `p` in `l` whose parent route is `r`. -/
def appendedChildren (l : List (List String)) (r : String) : List String :=
  (l.filter (fun p => decide (2 ≤ p.length) && decide (joinDot p.dropLast = r))).map
    joinDot

theorem childrenOf_linkStep_self (st : Store) (c : String) {r : String}
    (h : r ∈ keys st) :
    childrenOf (linkStep st r c) r = (childrenOf st r).map (fun l => l ++ [c]) := by
  simp only [linkStep]
  rw [childrenOf_setParent, childrenOf_addChild_self st c h]

theorem childrenOf_linkStep_other (st : Store) (sub c : String) {r : String}
    (h : r ≠ sub) :
    childrenOf (linkStep st sub c) r = childrenOf st r := by
  simp only [linkStep]
  rw [childrenOf_setParent, childrenOf_addChild_other st sub c h]

theorem parentOf_linkStep_of_eq (st : Store) {sub c : String}
    (hc : c ∈ keys st) (heq : parentOf st c = some sub) :
    ∀ r, parentOf (linkStep st sub c) r = parentOf st r := by
  intro r
  by_cases hr : r = c
  · subst hr
    rw [parentOf_linkStep_child st sub hc, heq]
  · simp only [linkStep]
    rw [parentOf_setParent_other _ _ _ hr, parentOf_addChild]

theorem walk_complete_forest (tag : Bool) (p : List String) (st : Store)
    (hp2 : 2 ≤ p.length)
    (hsub : joinDot (p.take (p.length - 1)) ∈ keys st) :
    walk tag p (p.length - 1) st (joinDot p) =
      (linkStep st (joinDot (p.take (p.length - 1))) (joinDot p), []) := by
  obtain ⟨i, hi⟩ : ∃ i, p.length - 1 = i + 1 := ⟨p.length - 2, by omega⟩
  rcases mem_keys_findEntry hsub with ⟨e, he⟩
  rw [hi] at he ⊢
  exact walk_existing he

theorem completeTree_complete_forest (tag : Bool) (inputs0 : List (List String))
    (hclosed : ∀ p ∈ inputs0, ∀ k, 1 ≤ k → k < p.length → p.take k ∈ inputs0) :
    ∀ (l : List (List String)) (st : Store),
      (∀ p ∈ l, p ∈ inputs0) →
      (∀ p ∈ inputs0, pathOf st (joinDot p) = some p) →
      (∀ r q, pathOf st r = some q →
        (2 ≤ q.length → parentOf st r = some (joinDot q.dropLast))) →
      (completeTree tag l st).2 = [] ∧
      (∀ r, pathOf (completeTree tag l st).1 r = pathOf st r) ∧
      (∀ r, parentOf (completeTree tag l st).1 r = parentOf st r) ∧
      (∀ r, childrenOf (completeTree tag l st).1 r =
        (childrenOf st r).map (fun c => c ++ appendedChildren l r)) := by
  intro l
  induction l with
  | nil =>
    intro st _ _ _
    rw [completeTree_nil]
    refine ⟨rfl, fun r => rfl, fun r => rfl, fun r => ?_⟩
    simp [appendedChildren]
  | cons p rest ih =>
    intro st hmem hpaths hcanon
    have hpmem : p ∈ inputs0 := hmem p (by simp)
    by_cases hp1 : p.length ≤ 1
    · -- length-1 module: fuel 0, walk is a no-op
      have hlen0 : p.length - 1 = 0 := by omega
      rw [completeTree_cons]
      dsimp only
      rw [hlen0, walk_zero]
      dsimp only
      obtain ⟨h1, h2, h3, h4⟩ := ih st (fun q hq => hmem q (by simp [hq]))
        hpaths hcanon
      refine ⟨by simpa using h1, h2, h3, fun r => ?_⟩
      rw [h4 r]
      have hnot : ¬ 2 ≤ p.length := by omega
      simp [appendedChildren, List.filter_cons, hnot]
    · -- non-root: existing branch links, appending a duplicate child
      have hp2 : 2 ≤ p.length := by omega
      have hdl : p.dropLast = p.take (p.length - 1) := List.dropLast_eq_take _
      have hdlmem : p.take (p.length - 1) ∈ inputs0 :=
        hclosed p hpmem _ (by omega) (by omega)
      have hsubpath : pathOf st (joinDot (p.take (p.length - 1))) =
          some (p.take (p.length - 1)) := hpaths _ hdlmem
      have hsub : joinDot (p.take (p.length - 1)) ∈ keys st := by
        have := hsubpath
        simp only [pathOf] at this
        cases hfe : findEntry st (joinDot (p.take (p.length - 1))) with
        | none =>
          rw [hfe] at this
          exact Option.noConfusion this
        | some e => exact findEntry_mem_keys hfe
      have hppath : pathOf st (joinDot p) = some p := hpaths p hpmem
      have hpkeys : joinDot p ∈ keys st := by
        simp only [pathOf] at hppath
        cases hfe : findEntry st (joinDot p) with
        | none =>
          rw [hfe] at hppath
          exact Option.noConfusion hppath
        | some e => exact findEntry_mem_keys hfe
      have hparp : parentOf st (joinDot p) = some (joinDot (p.take (p.length - 1))) := by
        have := hcanon _ _ (hpaths p hpmem) hp2
        rwa [hdl] at this
      rw [completeTree_cons]
      dsimp only
      rw [walk_complete_forest tag p st hp2 hsub]
      dsimp only
      set st1 := linkStep st (joinDot (p.take (p.length - 1))) (joinDot p) with hst1
      have hpath1 : ∀ r, pathOf st1 r = pathOf st r := by
        intro r
        rw [hst1, pathOf_linkStep]
      have hpar1 : ∀ r, parentOf st1 r = parentOf st r :=
        parentOf_linkStep_of_eq st hpkeys hparp
      obtain ⟨h1, h2, h3, h4⟩ := ih st1 (fun q hq => hmem q (by simp [hq]))
        (fun q hq => by rw [hpath1]; exact hpaths q hq)
        (fun r q hq h2q => by
          rw [hpath1] at hq
          rw [hpar1]
          exact hcanon r q hq h2q)
      refine ⟨by simpa using h1, fun r => by rw [h2, hpath1],
        fun r => by rw [h3, hpar1], fun r => ?_⟩
      rw [h4 r]
      by_cases hr : r = joinDot (p.take (p.length - 1))
      · subst hr
        rw [hst1, childrenOf_linkStep_self st _ hsub]
        have hcond : (decide (2 ≤ p.length) &&
            decide (joinDot p.dropLast = joinDot (p.take (p.length - 1)))) = true := by
          simp [hp2, hdl]
        cases hc : childrenOf st (joinDot (p.take (p.length - 1))) with
        | none => simp
        | some c =>
          simp only [Option.map_some']
          congr 1
          simp only [appendedChildren, List.filter_cons, hcond, if_true, List.map_cons]
          simp [appendedChildren]
      · rw [hst1, childrenOf_linkStep_other st _ _ hr]
        have hcond : (decide (2 ≤ p.length) &&
            decide (joinDot p.dropLast = r)) = false := by
          simp only [Bool.and_eq_false_iff, decide_eq_false_iff_not]
          right
          rw [hdl]
          exact fun hc => hr hc.symm
        cases hc : childrenOf st r with
        | none => simp
        | some c =>
          simp only [Option.map_some']
          congr 1
          simp only [appendedChildren, List.filter_cons, hcond]
          simp [appendedChildren]

theorem findEntry_mem {st : Store} {r : String} {e : ModEntry}
    (h : findEntry st r = some e) : (r, e) ∈ st := by
  induction st with
  | nil => exact Option.noConfusion h
  | cons ke rest ih =>
    cases ke with
    | mk k e' =>
      by_cases hk : k = r
      · subst hk
        simp only [findEntry, if_pos rfl] at h
        simp [Option.some.inj h]
      · rw [findEntry, if_neg hk] at h
        exact List.mem_cons_of_mem _ (ih h)

/-- A concrete complete linked forest: root `a` with one child `a.b`. -/
def exForest : Store :=
  [("a", ⟨["a"], none, ["a.b"], true⟩),
   ("a.b", ⟨["a", "b"], some "a", [], true⟩)]

/-- C7 counterexample: running Tree Completion over the already-complete
forest `exForest` is not a no-op — the store changes, because the children
list of `a` gains a duplicate `a.b` entry (the source appends the child
before checking the early-stop flag). -/
theorem C7_already_complete_not_noop :
    (completeTree true [["a"], ["a", "b"]] exForest).1 ≠ exForest ∧
    childrenOf (completeTree true [["a"], ["a", "b"]] exForest).1 "a" =
      some ["a.b", "a.b"] ∧
    childrenOf exForest "a" = some ["a.b"] := by decide

/-- C7 amended: running Tree Completion on an already-complete forest
returns the same module list (no new nodes: the synthesized list is empty,
and the route set is unchanged) and leaves every module's path and parent
link unchanged; but it is not a no-op on children links: each non-root
input module is appended once more to its parent's children list. -/
theorem C7_tree_completion_amended (tag : Bool) (inputs : List (List String))
    (st : Store)
    (hclosed : ∀ p ∈ inputs, ∀ k, 1 ≤ k → k < p.length → p.take k ∈ inputs)
    (hpaths : ∀ p ∈ inputs, pathOf st (joinDot p) = some p)
    (hcanon : ∀ ke ∈ st, 2 ≤ ke.2.path.length →
      ke.2.parent = some (joinDot ke.2.path.dropLast)) :
    (completeTree tag inputs st).2 = [] ∧
    keys (completeTree tag inputs st).1 = keys st ∧
    (∀ r, pathOf (completeTree tag inputs st).1 r = pathOf st r) ∧
    (∀ r, parentOf (completeTree tag inputs st).1 r = parentOf st r) ∧
    (∀ r, childrenOf (completeTree tag inputs st).1 r =
      (childrenOf st r).map (fun c => c ++ appendedChildren inputs r)) := by
  have hcanon' : ∀ r q, pathOf st r = some q →
      (2 ≤ q.length → parentOf st r = some (joinDot q.dropLast)) := by
    intro r q hq h2
    simp only [pathOf] at hq
    cases hfe : findEntry st r with
    | none =>
      rw [hfe] at hq
      exact Option.noConfusion hq
    | some e =>
      rw [hfe] at hq
      have hqe : q = e.path := (Option.some.inj hq).symm
      subst hqe
      have hpp := hcanon (r, e) (findEntry_mem hfe) h2
      simpa [parentOf, hfe] using hpp
  obtain ⟨h1, h2, h3, h4⟩ := completeTree_complete_forest tag inputs hclosed inputs st
    (fun p hp => hp) hpaths hcanon'
  refine ⟨h1, ?_, h2, h3, h4⟩
  rw [completeTree_keys, h1]
  simp

/-- Witness for the amended C7 on the concrete forest `exForest`. -/
theorem C7_tree_completion_amended_witness :
    (completeTree true [["a"], ["a", "b"]] exForest).2 = [] ∧
    childrenOf (completeTree true [["a"], ["a", "b"]] exForest).1 "a" =
      (childrenOf exForest "a").map
        (fun c => c ++ appendedChildren [["a"], ["a", "b"]] "a") := by
  have h := C7_tree_completion_amended true [["a"], ["a", "b"]] exForest
    (by decide) (by decide) (by decide)
  exact ⟨h.1, h.2.2.2.2 "a"⟩

end MTree

/-! ## The dependentspy pipeline (dependentspy.py, `dependentspy`)

The input snapshot is the discovered file list together with the raw import
identifiers the parsing front end extracted per file, plus the two external
collaborators of spec section 6: the file-system existence test
(`os.path.exists`) and the builtin registry (`is_builtin`).  The stages of
lines 102-210 are embedded on top of the `MTree` store model. -/

namespace Pipeline

open MTree

/-- A discovered source file: its directory parts, stem, and the raw import
identifier strings extracted from it. -/
structure PFile where
  parts : List String
  stem : String
  rawImports : List String
deriving DecidableEq

/-- The environment collaborators: `os.path.exists` on relative paths, and
the builtin/standard-library registry membership test. -/
structure Env where
  existsFS : List String → Bool
  isBuiltin : String → Bool

/-- `ProjectModule.from_file`: `path = (*file_path.parts[:-1], file_path.stem)`. -/
def modulePath (f : PFile) : List String := f.parts ++ [f.stem]

/-- `name.split(".")`, Python semantics. -/
def splitDotAux : List Char → List Char → List String
  | [], acc => [String.mk acc.reverse]
  | c :: cs, acc =>
    if c = '.' then String.mk acc.reverse :: splitDotAux cs []
    else splitDotAux cs (c :: acc)

def splitDot (s : String) : List String := splitDotAux s.data []

/-- `name.split(".")[0]`. -/
def firstSeg (s : String) : String := (splitDot s).headD ""

/-- `ProjectModule.import_routes` (module.py lines 101-119) together with
the warnings it emits: for each raw import name, if the first segment
matches a sibling `.py` file or package directory, rewrite the route into
the importer's package (`".".join([*self.path[:-1], name])`) and warn when
`is_builtin(name)` also holds; otherwise the name is used verbatim.
Returns (routes, warned names), both in source order. -/
def importRoutesW (env : Env) (parts : List String) :
    List String → List String × List String
  | [] => ([], [])
  | name :: rest =>
    let first := firstSeg name
    let isLocal := env.existsFS (parts ++ [first ++ ".py"]) ||
      env.existsFS (parts ++ [first])
    let res := importRoutesW env parts rest
    if isLocal then
      (joinDot (parts ++ [name]) :: res.1,
        (if env.isBuiltin name then [name] else []) ++ res.2)
    else (name :: res.1, res.2)

def fileImportRoutes (env : Env) (f : PFile) : List String :=
  (importRoutesW env f.parts f.rawImports).1

def fileWarnings (env : Env) (f : PFile) : List String :=
  (importRoutesW env f.parts f.rawImports).2

/-- Modelled from the spec (section 4.3 ambiguity policy, the condition the
claim states): a warning is expected when the FIRST SEGMENT of the import
identifier simultaneously matches a local sibling and a known
builtin/standard name. -/
def specAmbiguous (env : Env) (parts : List String) (name : String) : Bool :=
  (env.existsFS (parts ++ [firstSeg name ++ ".py"]) ||
    env.existsFS (parts ++ [firstSeg name])) && env.isBuiltin (firstSeg name)

/-- The registry for the C9 counterexample: exactly `os` is builtin, and
the importing module's directory `pkg` contains a sibling `os.py`. -/
def demoEnvC9 : Env :=
  ⟨fun l => decide (l = ["pkg", "os.py"]), fun s => decide (s = "os")⟩

/-- C9 counterexample: for the dotted import `os.path` in file `pkg/x.py`,
the first segment `os` matches both the local sibling `pkg/os.py` and the
builtin registry, so the claim demands a warning; but the source checks
`is_builtin(name)` on the FULL dotted name `os.path`, which is not in the
registry, so no warning is emitted (the import is still resolved locally,
to `pkg.os.path`). -/
theorem C9_warning_condition_counterexample :
    specAmbiguous demoEnvC9 ["pkg"] "os.path" = true ∧
    (importRoutesW demoEnvC9 ["pkg"] ["os.path"]).2 = [] ∧
    (importRoutesW demoEnvC9 ["pkg"] ["os.path"]).1 = ["pkg.os.path"] := by
  decide

/-- C9 amended: during import resolution a non-fatal warning is surfaced
for an import identifier if and only if its first segment matches a local
sibling file or package AND the FULL dotted identifier is a known
builtin/standard name (for single-segment imports this coincides with the
first segment); locally matching imports are always resolved in favor of
the local interpretation, by prefixing the importer's package path. -/
theorem C9_warning_condition_amended (env : Env) (parts : List String)
    (names : List String) :
    (importRoutesW env parts names).2 = names.filter (fun n =>
      (env.existsFS (parts ++ [firstSeg n ++ ".py"]) ||
        env.existsFS (parts ++ [firstSeg n])) && env.isBuiltin n) ∧
    (importRoutesW env parts names).1 = names.map (fun n =>
      if (env.existsFS (parts ++ [firstSeg n ++ ".py"]) ||
          env.existsFS (parts ++ [firstSeg n])) = true
      then joinDot (parts ++ [n]) else n) ∧
    ∀ n, n ∈ (importRoutesW env parts names).2 ↔
      n ∈ names ∧ (env.existsFS (parts ++ [firstSeg n ++ ".py"]) ||
        env.existsFS (parts ++ [firstSeg n])) = true ∧
        env.isBuiltin n = true := by
  have h12 : (importRoutesW env parts names).2 = names.filter (fun n =>
      (env.existsFS (parts ++ [firstSeg n ++ ".py"]) ||
        env.existsFS (parts ++ [firstSeg n])) && env.isBuiltin n) ∧
      (importRoutesW env parts names).1 = names.map (fun n =>
      if (env.existsFS (parts ++ [firstSeg n ++ ".py"]) ||
          env.existsFS (parts ++ [firstSeg n])) = true
      then joinDot (parts ++ [n]) else n) := by
    induction names with
    | nil => exact ⟨rfl, rfl⟩
    | cons name rest ih =>
      obtain ⟨ih1, ih2⟩ := ih
      by_cases hloc : (env.existsFS (parts ++ [firstSeg name ++ ".py"]) ||
          env.existsFS (parts ++ [firstSeg name])) = true
      · have hor : env.existsFS (parts ++ [firstSeg name ++ ".py"]) = true ∨
            env.existsFS (parts ++ [firstSeg name]) = true := by simpa using hloc
        by_cases hb : env.isBuiltin name = true
        · exact ⟨by simp [importRoutesW, hloc, hb, List.filter_cons, ih1],
            by simp [importRoutesW, hloc, hb, ih2, hor]⟩
        · exact ⟨by simp [importRoutesW, hloc, hb, List.filter_cons, ih1],
            by simp [importRoutesW, hloc, hb, ih2, hor]⟩
      · have hnor : ¬(env.existsFS (parts ++ [firstSeg name ++ ".py"]) = true ∨
            env.existsFS (parts ++ [firstSeg name]) = true) := by
          simpa using hloc
        exact ⟨by simp [importRoutesW, hloc, List.filter_cons, ih1],
          by simp [importRoutesW, hloc, ih2, hnor]⟩
  refine ⟨h12.1, h12.2, ?_⟩
  intro n
  rw [h12.1, List.mem_filter]
  simp [Bool.and_eq_true, and_assoc]

/-- A file whose import extraction may fail: `parse` is the outcome of
`ast.parse` in `analyze_imports`, an exception or the import name list. -/
structure PFileE where
  parts : List String
  stem : String
  parse : Except String (List String)

/-- The import-collection loop of the pipeline (dependentspy.py lines
112-113): `sum([m.import_routes or [] for m in project_modules], [])`.
Each file's extraction runs in order; an exception propagates out of the
whole comprehension - there is no handler anywhere in the pipeline. -/
def collectImports : List PFileE → Except String (List (List String))
  | [] => Except.ok []
  | f :: rest =>
    match f.parse with
    | Except.error e => Except.error e
    | Except.ok names =>
      match collectImports rest with
      | Except.error e => Except.error e
      | Except.ok tl => Except.ok (names :: tl)

def demoFilesC6 : List PFileE :=
  [⟨[], "good", Except.ok ["os"]⟩,
   ⟨[], "bad", Except.error "SyntaxError: invalid syntax"⟩,
   ⟨[], "late", Except.ok ["sys"]⟩]

/-- C6 counterexample: with one unparsable file among three, the
collection of imports aborts with the propagated exception instead of
isolating the failure, continuing with the remaining files, and reporting
it in an aggregate diagnostic list. -/
theorem C6_extraction_failure_counterexample :
    collectImports demoFilesC6 = Except.error "SyntaxError: invalid syntax" := rfl

/-- C6 amended: if import extraction of any single file fails, the
exception propagates and the whole run aborts with some extraction error;
no per-file isolation, recovery, or aggregate diagnostic list exists in the
code path. -/
theorem C6_extraction_failure_amended (files : List PFileE)
    (h : ∃ f ∈ files, ∃ e, f.parse = Except.error e) :
    ∃ e, collectImports files = Except.error e := by
  induction files with
  | nil =>
    rcases h with ⟨f, hf, _⟩
    simp at hf
  | cons f rest ih =>
    cases hp : f.parse with
    | error e => exact ⟨e, by simp [collectImports, hp]⟩
    | ok names =>
      rcases h with ⟨g, hg, e, hge⟩
      rcases List.mem_cons.mp hg with hgf | hgr
      · subst hgf
        rw [hp] at hge
        exact Except.noConfusion hge
      · rcases ih ⟨g, hgr, e, hge⟩ with ⟨e', he'⟩
        exact ⟨e', by simp [collectImports, hp, he']⟩

/-- Insertion sort on strings (Python `sorted`). -/
def sortStrInsert (s : String) : List String → List String
  | [] => [s]
  | t :: rest => if s ≤ t then s :: t :: rest else t :: sortStrInsert s rest

def sortStr : List String → List String
  | [] => []
  | s :: rest => sortStrInsert s (sortStr rest)

def projectLeafPaths (files : List PFile) : List (List String) :=
  files.map modulePath

/-- `project_routes = {m.route for m in project_modules}` - LEAF routes
only, computed before tree completion (dependentspy.py line 104). -/
def projectRoutes (files : List PFile) : List String :=
  (projectLeafPaths files).map joinDot

def projectStore (files : List PFile) : Store :=
  (MTree.complete_module_tree true (projectLeafPaths files)).1

def projectRoutesAll (files : List PFile) : List String :=
  MTree.resultRoutes true (projectLeafPaths files)

/-- `sorted(set(sum([m.import_routes or [] for m in project_modules], [])))`. -/
def allImportRoutes (env : Env) (files : List PFile) : List String :=
  sortStr ((files.flatMap (fileImportRoutes env)).dedup)

/-- `[Module(r) for r in import_routes if r not in project_routes]` - the
external wave excludes only the project LEAF routes. -/
def externalRouteStrs (env : Env) (files : List PFile) : List String :=
  (allImportRoutes env files).filter (fun r => !decide (r ∈ projectRoutes files))

def externalPaths (env : Env) (files : List PFile) : List (List String) :=
  (externalRouteStrs env files).map splitDot

def externalStore (env : Env) (files : List PFile) : Store :=
  (MTree.complete_module_tree false (externalPaths env files)).1

def externalRoutesAll (env : Env) (files : List PFile) : List String :=
  MTree.resultRoutes false (externalPaths env files)

/-- `modules = project_modules + external_modules`, as route lists. -/
def mergedRoutes (env : Env) (files : List PFile) : List String :=
  projectRoutesAll files ++ externalRoutesAll env files

/-- `route_map = {m.route: m for m in modules}`: a later (external-wave)
module overwrites an earlier (project-wave) module with the same route. -/
def routeMapFind (env : Env) (files : List PFile) (r : String) : Option ModEntry :=
  match findEntry (externalStore env files) r with
  | some e => some e
  | none => findEntry (projectStore files) r

def demoFilesC8 : List PFile := [⟨[], "a", ["pkg"]⟩, ⟨["pkg"], "c", []⟩]

def demoEnvC8 : Env := ⟨fun l => decide (l = ["pkg"]), fun _ => false⟩

/-- C8 counterexample: with files `a.py` (importing the local package
`pkg`) and `pkg/c.py`, the project wave synthesizes a ProjectModule with
route `pkg`, while the external wave also creates a Module with route
`pkg` (the filter only excludes project LEAF routes, and `pkg` is not a
leaf route).  After the merge two distinct module objects share the route
`pkg`, and the route map resolves it to the external one. -/
theorem C8_route_uniqueness_counterexample :
    ¬ (mergedRoutes demoEnvC8 demoFilesC8).Nodup ∧
    (mergedRoutes demoEnvC8 demoFilesC8).count "pkg" = 2 ∧
    (routeMapFind demoEnvC8 demoFilesC8 "pkg").map ModEntry.isProj =
      some false := by decide

/-- C8 amended: no two distinct modules created in the same wave share a
route; across the two waves, uniqueness additionally requires that no
external-wave route (import identifiers and their synthesized ancestor
routes) coincides with any project-wave route - the code's filter excludes
only project leaf routes, so synthesized project package routes can
collide with external routes. -/
theorem C8_route_uniqueness_amended (env : Env) (files : List PFile)
    (hnd1 : ((projectLeafPaths files).map joinDot).Nodup)
    (hnd2 : ((externalPaths env files).map joinDot).Nodup)
    (hdisj : ∀ r ∈ projectRoutesAll files, r ∉ externalRoutesAll env files) :
    (projectRoutesAll files).Nodup ∧ (externalRoutesAll env files).Nodup ∧
      (mergedRoutes env files).Nodup := by
  have h1 := MTree.resultRoutes_nodup true (projectLeafPaths files) hnd1
  have h2 := MTree.resultRoutes_nodup false (externalPaths env files) hnd2
  exact ⟨h1, h2, List.Nodup.append h1 h2 (fun r hr1 hr2 => hdisj r hr1 hr2)⟩

def demoFilesC8w : List PFile := [⟨[], "a", ["os"]⟩]

def demoEnvC8w : Env := ⟨fun _ => false, fun _ => false⟩

/-- Witness for the amended C8 on a one-file project importing `os`. -/
theorem C8_route_uniqueness_amended_witness :
    (projectRoutesAll demoFilesC8w).Nodup ∧
    (externalRoutesAll demoEnvC8w demoFilesC8w).Nodup ∧
    (mergedRoutes demoEnvC8w demoFilesC8w).Nodup :=
  C8_route_uniqueness_amended demoEnvC8w demoFilesC8w
    (by decide) (by decide) (by decide)

/-- The resolved-import check at the leaf-graph insertion site
(dependentspy.py lines 135-139): for every resolved import of a project
module that maps to a project-wave module, the source asserts
`im.is_leaf()`.  `true` iff no assertion would fail. -/
def leafAssertionHolds (env : Env) (files : List PFile) : Bool :=
  files.all (fun f =>
    (fileImportRoutes env f).all (fun r =>
      match routeMapFind env files r with
      | some e => !e.isProj || e.children.isEmpty
      | none => true))

def demoFilesC3 : List PFile :=
  [⟨[], "a", ["pkg"]⟩, ⟨[], "pkg", []⟩, ⟨["pkg"], "c", []⟩]

def demoEnvC3 : Env :=
  ⟨fun l => decide (l = ["pkg.py"]) || decide (l = ["pkg"]), fun _ => false⟩

/-- C3 is violated by the code: in a project with files `a.py` (importing
`pkg`), `pkg.py` and `pkg/c.py`, the import `pkg` of `a` resolves to the
PROJECT module `pkg` (the leaf module of `pkg.py`), which after tree
completion owns the child `pkg.c` and is no longer a leaf - so the
resolved import references a non-leaf project module and the guarding
assertion `assert im.is_leaf()` fails, aborting the run. -/
theorem C3_leaf_assertion_fails :
    fileImportRoutes demoEnvC3 ⟨[], "a", ["pkg"]⟩ = ["pkg"] ∧
    (routeMapFind demoEnvC3 demoFilesC3 "pkg").map ModEntry.isProj = some true ∧
    (routeMapFind demoEnvC3 demoFilesC3 "pkg").map ModEntry.children =
      some ["pkg.c"] ∧
    leafAssertionHolds demoEnvC3 demoFilesC3 = false := by decide

/-- `[m.route for m in project_modules if m.is_leaf()]`. -/
def leafProjectRoutes (files : List PFile) : List String :=
  (projectRoutesAll files).filter (fun r =>
    match findEntry (projectStore files) r with
    | some e => e.children.isEmpty
    | none => false)

/-- `gr.in_degree(r)`. -/
def inDeg (E : Finset (String × String)) (r : String) : Nat :=
  (E.filter (fun p => p.2 = r)).card

/-- `gr.out_degree(r)`. -/
def outDeg (E : Finset (String × String)) (r : String) : Nat :=
  (E.filter (fun p => p.1 = r)).card

def neverImported (files : List PFile) (E : Finset (String × String)) :
    List String :=
  (leafProjectRoutes files).filter (fun r => decide (inDeg E r = 0))

def noImports (files : List PFile) (E : Finset (String × String)) :
    List String :=
  (leafProjectRoutes files).filter (fun r => decide (outDeg E r = 0))

/-- Lines 144-163 of dependentspy.py: when `prune` is set, the hide list is
extended by `never_imported + no_imports`; the `dead_ends` list (from
`find_dead_ends(gr)`) is computed and printed but never added to it. -/
def hideAfterPrune (prune : Bool) (hide0 : List String) (files : List PFile)
    (E : Finset (String × String)) : List String :=
  if prune then hide0 ++ (neverImported files E ++ noImports files E) else hide0

/-- C5: When `prune` is enabled, the hide-set consumed by the visibility
filter is extended by exactly the union of the never-imported set (leaf
project routes with in-degree 0) and the no-imports set (leaf project
routes with out-degree 0); no route that is not an in-degree-0 or
out-degree-0 leaf is ever added, and the dead-ends set is not consulted by
the hide-set at all (with `prune` off the hide list is unchanged). -/
theorem C5_prune_hide_set (files : List PFile) (E : Finset (String × String))
    (hide0 : List String) :
    (∀ r, r ∈ hideAfterPrune true hide0 files E ↔
      r ∈ hide0 ∨ (r ∈ leafProjectRoutes files ∧
        (inDeg E r = 0 ∨ outDeg E r = 0))) ∧
    hideAfterPrune false hide0 files E = hide0 := by
  constructor
  · intro r
    simp only [hideAfterPrune, if_true, List.mem_append, neverImported,
      noImports, List.mem_filter, decide_eq_true_eq]
    tauto
  · rfl

/-- The project leaf import graph (lines 133-139): one edge per
resolved import whose target is a project-wave module. -/
def importEdges (env : Env) (files : List PFile) : Finset (String × String) :=
  (files.flatMap (fun f =>
    (fileImportRoutes env f).filterMap (fun r =>
      match routeMapFind env files r with
      | some e => if e.isProj then some (joinDot (modulePath f), r) else none
      | none => none))).toFinset

/-- The configuration parameters relevant to visibility (spec section 6). -/
structure Config where
  prune : Bool
  show_3rdparty : Bool
  show_builtin : Bool
  summarize_external : Bool
  use_clusters : Bool
  use_nested_clusters : Bool
  min_cluster_size : Nat
  hide : List String

/-- Cluster-container selection (lines 165-178): non-leaf, root-unless
nested, at least `min_cluster_size` children, not hidden. -/
def clusterNames (env : Env) (files : List PFile) (cfg : Config)
    (hide1 : List String) : List String :=
  let nested := cfg.use_clusters && cfg.use_nested_clusters
  if cfg.use_clusters then
    ((if cfg.summarize_external then projectStore files
      else projectStore files ++ externalStore env files).filter (fun ke =>
        !ke.2.children.isEmpty &&
        (nested || ke.2.parent.isNone) &&
        decide (cfg.min_cluster_size ≤ ke.2.children.length) &&
        !decide (ke.1 ∈ hide1))).map Prod.fst
  else []

/-- The visibility filter (lines 193-210) INCLUDING line 130 of the source,
`hide = []`, which overwrites the caller's `hide` parameter with the empty
list before the hide-set is assembled - `cfg.hide` is therefore never read
below, exactly as in the source. -/
def visibleRoutes (env : Env) (files : List PFile) (cfg : Config) : List String :=
  let hide0 : List String := []
  let hide1 := hideAfterPrune cfg.prune hide0 files (importEdges env files)
  let cnames := clusterNames env files cfg hide1
  ((projectStore files ++ externalStore env files).filter (fun ke =>
    !(!cfg.show_builtin && env.isBuiltin (ke.2.path.headD "")) &&
    !(!cfg.show_3rdparty && (!ke.2.isProj && !env.isBuiltin (ke.2.path.headD ""))) &&
    !decide (ke.1 ∈ hide1) &&
    !(!ke.2.isProj && cfg.summarize_external && !ke.2.parent.isNone) &&
    !decide (ke.1 ∈ cnames))).map Prod.fst

def demoFilesC4 : List PFile := [⟨[], "main", []⟩]

def demoEnvC4 : Env := ⟨fun _ => false, fun _ => false⟩

def demoCfgC4 : Config := ⟨false, true, false, true, true, true, 2, ["main"]⟩

/-- C4 is violated by the code: with the single file `main.py` and the
configuration `hide=["main"]`, the module `main` is still emitted as a
visible node, because line 130 (`hide = []`) discards the caller's `hide`
parameter before the visibility filter consumes it. -/
theorem C4_hidden_route_still_visible :
    "main" ∈ demoCfgC4.hide ∧
    "main" ∈ visibleRoutes demoEnvC4 demoFilesC4 demoCfgC4 := by decide

/-- Witness for the amended C6 at the concrete three-file input. -/
theorem C6_extraction_failure_amended_witness :
    (∃ f ∈ demoFilesC6, ∃ e, f.parse = Except.error e) ∧
    ∃ e, collectImports demoFilesC6 = Except.error e :=
  ⟨⟨⟨[], "bad", Except.error "SyntaxError: invalid syntax"⟩,
      List.mem_cons_of_mem _ (List.mem_cons_self _ _),
      "SyntaxError: invalid syntax", rfl⟩,
    C6_extraction_failure_amended demoFilesC6
      ⟨⟨[], "bad", Except.error "SyntaxError: invalid syntax"⟩,
        List.mem_cons_of_mem _ (List.mem_cons_self _ _),
        "SyntaxError: invalid syntax", rfl⟩⟩

end Pipeline

/-! ## Edge emission in `create_graphviz` (dependentspy.py lines 306-329,
visualization.py lines 108-127 - the import-edge logic is identical)

Python object identity matters here (`im in visible_modules` compares
objects), so modules are represented as indices into a pool. -/

namespace GViz

/-- A module as `create_graphviz` sees it: path, parent back-reference,
`ProjectModule` tag, and resolved imports, with identity given by the pool
index. -/
structure GVM where
  path : List String
  parentIdx : Option Nat
  isProject : Bool
  imports : List Nat
deriving DecidableEq

def pathLen (pool : List GVM) (i : Nat) : Nat :=
  ((pool[i]?).map (fun m => m.path.length)).getD 0

def parentIdx (pool : List GVM) (i : Nat) : Option Nat :=
  (pool[i]?).bind GVM.parentIdx

/-- `Module.get_root`, fuel-indexed: follow parent links to the root. -/
def getRootAux (pool : List GVM) : Nat → Nat → Nat
  | 0, i => i
  | fuel + 1, i =>
    match parentIdx pool i with
    | none => i
    | some j => getRootAux pool fuel j

/-- `im.get_root()`: the path length strictly decreases along parent links
(a parent's path is a proper prefix), so it bounds the recursion depth. -/
def get_root (pool : List GVM) (i : Nat) : Nat :=
  getRootAux pool (pathLen pool i) i

/-- Executable pool well-formedness: parent links stay in range and
strictly shorten the path, and paths are nonempty. -/
def wfPoolB (pool : List GVM) : Bool :=
  (List.range pool.length).all (fun i =>
    (match parentIdx pool i with
     | none => true
     | some j => decide (j < pool.length) &&
        decide (pathLen pool j < pathLen pool i)) &&
    decide (1 ≤ pathLen pool i))

/-- Executable check that all import indices are in range. -/
def importsOkB (pool : List GVM) : Bool :=
  pool.all (fun m => m.imports.all (fun im => decide (im < pool.length)))

/-- The import edges `create_graphviz` emits, as (source, target) pool
indices: for each visible module that is a `ProjectModule`, and each of
its imports, first redirect a non-project target to its root module when
`summarize_external` is set, then emit the edge only if the (possibly
redirected) target is itself in the visible list. -/
def emittedEdges (pool : List GVM) (visible : List Nat)
    (summarize_external : Bool) : List (Nat × Nat) :=
  visible.flatMap (fun i =>
    if ((pool[i]?).map GVM.isProject).getD false then
      (((pool[i]?).map GVM.imports).getD []).filterMap (fun im =>
        let im2 := if !((pool[im]?).map GVM.isProject).getD false &&
            summarize_external then get_root pool im else im
        if im2 ∈ visible then some (i, im2) else none)
    else [])

theorem wfPoolB_parent {pool : List GVM} (h : wfPoolB pool = true) :
    ∀ i, i < pool.length → ∀ j, parentIdx pool i = some j →
      j < pool.length ∧ pathLen pool j < pathLen pool i := by
  intro i hi j hj
  simp only [wfPoolB, List.all_eq_true, List.mem_range] at h
  have hh := h i hi
  rw [hj] at hh
  simp only [Bool.and_eq_true, decide_eq_true_eq] at hh
  exact hh.1

theorem wfPoolB_pathLen {pool : List GVM} (h : wfPoolB pool = true) :
    ∀ i, i < pool.length → 1 ≤ pathLen pool i := by
  intro i hi
  simp only [wfPoolB, List.all_eq_true, List.mem_range] at h
  have hh := h i hi
  simp only [Bool.and_eq_true, decide_eq_true_eq] at hh
  exact hh.2

theorem getRootAux_root {pool : List GVM} (h : wfPoolB pool = true) :
    ∀ (fuel i : Nat), i < pool.length → pathLen pool i ≤ fuel →
      parentIdx pool (getRootAux pool fuel i) = none ∧
        getRootAux pool fuel i < pool.length := by
  intro fuel
  induction fuel with
  | zero =>
    intro i hi hfu
    have := wfPoolB_pathLen h i hi
    omega
  | succ fuel ih =>
    intro i hi hfu
    cases hp : parentIdx pool i with
    | none =>
      refine ⟨?_, ?_⟩ <;> simp [getRootAux, hp, hi]
    | some j =>
      have hj := wfPoolB_parent h i hi j hp
      have hres := ih j hj.1 (by omega)
      constructor
      · simpa [getRootAux, hp] using hres.1
      · simpa [getRootAux, hp] using hres.2

theorem importsOkB_spec {pool : List GVM} (h : importsOkB pool = true) :
    ∀ (i : Nat) (m : GVM), pool[i]? = some m → ∀ im ∈ m.imports,
      im < pool.length := by
  intro i m hm im him
  simp only [importsOkB, List.all_eq_true, decide_eq_true_eq] at h
  have hg : pool.get? i = some m := by
    rw [List.get?_eq_getElem?]
    exact hm
  exact h m (List.get?_mem hg) im him

/-- C10: When `summarize_external=true`, every emitted import edge runs
between two currently-visible modules, and no emitted edge ever targets a
non-root external module: any import whose target is a non-project module
is redirected to that module's root (whose parent link is `none`) before
the visibility check. -/
theorem C10_edge_redirection (pool : List GVM) (visible : List Nat)
    (hwf : wfPoolB pool = true) (himp : importsOkB pool = true) :
    ∀ u v, (u, v) ∈ emittedEdges pool visible true →
      u ∈ visible ∧ v ∈ visible ∧
        ∀ m, pool[v]? = some m → m.isProject = false → m.parentIdx = none := by
  intro u v hmem
  simp only [emittedEdges, List.mem_flatMap] at hmem
  rcases hmem with ⟨i, hi, hin⟩
  by_cases hproj : ((pool[i]?).map GVM.isProject).getD false = true
  · rw [if_pos hproj] at hin
    simp only [List.mem_filterMap] at hin
    rcases hin with ⟨im, him, heq⟩
    by_cases hvis2 : (if !((pool[im]?).map GVM.isProject).getD false && true
        then get_root pool im else im) ∈ visible
    · rw [if_pos hvis2] at heq
      have hpair := Option.some.inj heq
      have h1 : i = u := congrArg Prod.fst hpair
      have h2 : (if !((pool[im]?).map GVM.isProject).getD false && true
          then get_root pool im else im) = v := congrArg Prod.snd hpair
      subst h1
      subst h2
      refine ⟨hi, hvis2, ?_⟩
      intro m hm hmp
      have himlt : im < pool.length := by
        cases hpi : pool[i]? with
        | none =>
          rw [hpi] at hproj
          simp at hproj
        | some msrc =>
          refine importsOkB_spec himp i msrc hpi im ?_
          rw [hpi] at him
          simpa using him
      by_cases hext : ((pool[im]?).map GVM.isProject).getD false = true
      · -- project target: no redirection; contradicts isProject = false
        have hcond : (!((pool[im]?).map GVM.isProject).getD false && true) = false := by
          simp [hext]
        rw [hcond] at hm
        simp only [Bool.false_eq_true, if_false] at hm
        cases hpim : pool[im]? with
        | none =>
          rw [hpim] at hext
          simp at hext
        | some m' =>
          rw [hpim] at hm hext
          have hmm : m = m' := (Option.some.inj hm).symm
          subst hmm
          simp only [Option.map_some', Option.getD_some] at hext
          rw [hext] at hmp
          exact Bool.noConfusion hmp
      · -- external target: redirected to its root, whose parent is none
        have hcond : (!((pool[im]?).map GVM.isProject).getD false && true) = true := by
          simp [hext]
        rw [hcond] at hm
        simp only [if_true] at hm
        have hroot := getRootAux_root hwf (pathLen pool im) im himlt le_rfl
        have hthis : parentIdx pool (get_root pool im) = none := hroot.1
        simp only [parentIdx] at hthis
        rw [hm] at hthis
        simpa using hthis
    · rw [if_neg hvis2] at heq
      exact Option.noConfusion heq
  · rw [if_neg hproj] at hin
    simp at hin

/-- Witness pool for C10: project modules `a` (importing `b` and the
external `x.y`) and `b`, external modules `x.y` (child) and `x` (root);
visible: `a`, `b`, `x`. -/
def demoPool : List GVM :=
  [⟨["a"], none, true, [1, 2]⟩,
   ⟨["b"], none, true, []⟩,
   ⟨["x", "y"], some 3, false, []⟩,
   ⟨["x"], none, false, []⟩]

/-- Witness for C10: both emitted edges (`a to b` and the redirected
`a to x`) run between visible modules and never target the non-root
external module `x.y`. -/
theorem C10_edge_redirection_witness :
    emittedEdges demoPool [0, 1, 3] true = [(0, 1), (0, 3)] ∧
    (0 ∈ ([0, 1, 3] : List Nat) ∧ 3 ∈ ([0, 1, 3] : List Nat) ∧
      ∀ m, demoPool[3]? = some m → m.isProject = false → m.parentIdx = none) := by
  refine ⟨by decide, ?_⟩
  exact C10_edge_redirection demoPool [0, 1, 3] (by decide) (by decide)
    0 3 (by decide)

end GViz

end Dependentspy
